import Mathlib

/-!
Verification of the code-block repair engine of the feishu2Md repository.

The development shallowly embeds the two core source modules,
`SourceCode/markdown_repair.py` (class `CodeBlockProcessor`) and
`SourceCode/markdown_cleaner.py` (class `MarkdownCleaner`), as executable
Lean functions over `List Char`, and proves or refutes the specified
properties of the pipeline.

Conventions of the embedding:
- a Python `str` is modelled as `List Char` (`Str`);
- Python regular-expression operations are modelled by specialised
  scanners that implement the leftmost, priority-ordered backtracking
  semantics of the concrete pattern they embed (each is documented at
  its definition);
- scanners whose recursion is not structural take an explicit fuel
  argument; the public wrapper passes `length + 1`, which is sufficient
  because every step consumes at least one character;
- interactive `input()` calls are modelled by an oracle `Nat → Str`
  indexed by the running block counter, and `print` calls (warnings,
  progress) are either dropped or surfaced as an extra `Bool` result.
-/

/-- Python strings are modelled as lists of characters. -/
abbrev Str := List Char

/-- Whitespace characters recognised by Python's `\s` and `str.strip()`
(restricted to the ASCII range: space, tab, newline, carriage return,
vertical tab, form feed). -/
def isPyWs (c : Char) : Bool :=
  c = ' ' || c = '\t' || c = '\n' || c = '\r' || c = Char.ofNat 11 || c = Char.ofNat 12

/-- Python `str.lstrip()`. -/
def pyLstrip (s : Str) : Str := s.dropWhile isPyWs

/-- Python `str.rstrip()`. -/
def pyRstrip (s : Str) : Str := (s.reverse.dropWhile isPyWs).reverse

/-- Python `str.strip()`. -/
def pyStrip (s : Str) : Str := pyLstrip (pyRstrip s)

/-- Python `str.lower()` (ASCII letters; other characters unchanged). -/
def pyLower (s : Str) : Str := s.map Char.toLower

/-- The backtick character, written by code point. -/
def backquoteChar : Char := Char.ofNat 96

/-- The opening-brace character, written by code point. -/
def lbraceChar : Char := Char.ofNat 123

/-- The closing-brace character, written by code point. -/
def rbraceChar : Char := Char.ofNat 125

/-- Python `text.split('\n')`: splits at every newline, keeping empty
pieces, and returns `[""]` on the empty string. -/
def splitLines : Str → List Str
  | [] => [[]]
  | c :: rest =>
    if c = '\n' then [] :: splitLines rest
    else
      match splitLines rest with
      | [] => [[c]]
      | l :: ls => (c :: l) :: ls

/-- Python `'\n'.join(lines)`. -/
def joinLines : List Str → Str
  | [] => []
  | [l] => l
  | l :: ls => l ++ '\n' :: joinLines ls

/-- Fuel-driven body of `listReplace` (Python `str.replace`): replaces
every non-overlapping occurrence of `pat`, scanning left to right. -/
def listReplaceF (pat rep : Str) : Nat → Str → Str
  | 0, _ => []
  | _ + 1, [] => []
  | fuel + 1, c :: rest =>
    if pat ≠ [] ∧ pat.isPrefixOf (c :: rest) then
      rep ++ listReplaceF pat rep fuel ((c :: rest).drop pat.length)
    else c :: listReplaceF pat rep fuel rest

/-- Python `s.replace(pat, rep)` for a non-empty pattern. -/
def listReplace (pat rep s : Str) : Str := listReplaceF pat rep (s.length + 1) s

/-!
Embedding of `SourceCode/markdown_repair.py`, class `CodeBlockProcessor`.
-/

/-- `CodeBlockProcessor.KNOWN_LANGUAGES` (markdown_repair.py lines 31-35). -/
def KNOWN_LANGUAGES : List Str :=
  [("c").data, ("cpp").data, ("c++").data, ("python").data, ("py").data,
   ("java").data, ("javascript").data, ("js").data, ("html").data,
   ("css").data, ("yaml").data, ("bash").data, ("shell").data, ("sh").data,
   ("sql").data, ("go").data, ("rust").data, ("typescript").data,
   ("ts").data, ("markdown").data, ("json").data, ("xml").data,
   ("ruby").data, ("php").data]

/-- Character class `[a-zA-Z0-9_.-]` of the identifier regular expression
in `_validate_identifier`. -/
def isIdentChar (c : Char) : Bool :=
  ('a' ≤ c && c ≤ 'z') || ('A' ≤ c && c ≤ 'Z') || ('0' ≤ c && c ≤ '9') ||
    c = '_' || c = '.' || c = '-'

/-- `CodeBlockProcessor._validate_identifier` (markdown_repair.py lines
60-77).  The empty identifier is accepted in any context; otherwise the
identifier must fully match `[a-zA-Z0-9_.-]+`; the dedicated placeholder
comparison and the per-context rules follow the source order. -/
def validate_identifier (identifier context : Str) : Bool :=
  if identifier = [] then true
  else if ¬ identifier.all isIdentChar then false
  else if pyLower identifier = ("演示").data then true
  else if context = ("first_part").data then
    KNOWN_LANGUAGES.contains (pyLower identifier)
  else if context = ("title_line").data then true
  else false

/-- The standard-fence test used in `run` and `_fix_unterminated_blocks`:
`line.strip().startswith('```') and len(line.strip().replace('`','')) < 15`. -/
def is_standard_delimiter (line : Str) : Bool :=
  ("```").data.isPrefixOf (pyStrip line) &&
    ((pyStrip line).filter (fun c => ¬ c = backquoteChar)).length < 15

/-- The dashed-delimiter test of `run`: `re.match(r"^\s*-{3,}[ \t]*$", line)`
on a single line (which contains no newline). -/
def is_dashed_delimiter (line : Str) : Bool :=
  let rest := line.dropWhile isPyWs
  let dashes := rest.takeWhile (fun c => c = '-')
  3 ≤ dashes.length && (rest.drop dashes.length).all (fun c => c = ' ' || c = '\t')

/-- Greedy match of `\s*$` (MULTILINE) after a backslash, as used by
`re.sub(r'\\\s*$', '', text, flags=re.MULTILINE)`: consume the longest
whitespace run (newlines included) that ends at the end of the string or
immediately before a newline; `none` when no such end position exists. -/
def matchWs : Str → Option Str
  | [] => some []
  | c :: rest =>
    if isPyWs c then
      match matchWs rest with
      | some r => some r
      | none => if c = '\n' then some (c :: rest) else none
    else none

/-- Fuel-driven body of `subLineCont`. -/
def subLineContF : Nat → Str → Str
  | 0, _ => []
  | _ + 1, [] => []
  | fuel + 1, c :: rest =>
    if c = '\\' then
      match matchWs rest with
      | some r => subLineContF fuel r
      | none => c :: subLineContF fuel rest
    else c :: subLineContF fuel rest

/-- `re.sub(r'\\\s*$', '', text, flags=re.MULTILINE)`, the trailing
line-continuation-backslash removal shared by
`CodeBlockProcessor._process_dashed_content` and
`MarkdownCleaner._clean_code_block_content` (step 1). -/
def subLineCont (s : Str) : Str := subLineContF (s.length + 1) s

/-- `CodeBlockProcessor._process_dashed_content` (markdown_repair.py lines
79-97): strips line-continuation backslashes, drops leading blank lines,
promotes a first (and optionally second) line to language and title, and
re-emits the remainder as a standard fenced block. -/
def process_dashed_content (content : Str) : Str :=
  let content1 := pyStrip (subLineCont content)
  let lines0 := (splitLines content1).dropWhile (fun l => pyStrip l = [])
  let langStep : Str × List Str :=
    match lines0 with
    | l0 :: rest =>
      if validate_identifier (pyStrip l0) (("first_part").data) then (pyStrip l0, rest)
      else ([], lines0)
    | [] => ([], lines0)
  let titleStep : Str × List Str :=
    match langStep.2 with
    | l0 :: rest =>
      if validate_identifier (pyStrip l0) (("title_line").data) then (pyStrip l0, rest)
      else ([], langStep.2)
    | [] => ([], langStep.2)
  let lang_spec := if titleStep.1 ≠ [] then langStep.1 ++ ' ' :: titleStep.1 else langStep.1
  ("```").data ++ lang_spec ++ '\n' :: joinLines titleStep.2 ++ ("\n```").data

/-- `re.match(r'^```(\S*)\s*(.*)$', first_line)` of `_deconstruct_block`,
returning the two capture groups.  The pattern is deterministic on a
newline-free line: `\S*` takes the maximal non-whitespace run after the
fence, `\s*` the following maximal whitespace run, `(.*)` the rest. -/
def fence_header_match (line : Str) : Option (Str × Str) :=
  if ("```").data.isPrefixOf line then
    let rest := line.drop 3
    let fp := rest.takeWhile (fun c => ¬ isPyWs c)
    some (fp, (rest.drop fp.length).dropWhile isPyWs)
  else none

/-- The opening-fence-header parse of `_deconstruct_block`
(markdown_repair.py lines 179-203): returns the language tag and the
code parts pushed back from the header line. -/
def deconstruct_header (first_line : Str) : Str × List Str :=
  match fence_header_match first_line with
  | some (fp, g2) =>
    let sp := pyStrip g2
    if validate_identifier fp (("first_part").data) then
      if sp ≠ [] then
        if validate_identifier sp (("title_line").data) then
          (fp ++ ' ' :: sp, ([] : List Str))
        else (fp, [sp])
      else (fp, [])
    else if pyLower fp = ("演示").data then
      (("__DEMO__").data, if sp ≠ [] then [sp] else [])
    else
      let full := pyStrip (fp ++ ' ' :: sp)
      (("__INVALID__").data, if full ≠ [] then [full] else [])
  | none => (("__INVALID__").data, [first_line])

/-- The first-body-line language promotion of `_deconstruct_block`
(markdown_repair.py lines 207-214): an untagged block whose first
content line strips to a valid known-language identifier without an
embedded space has that line promoted to the language tag. -/
def promote_body_language (original_lang : Str) (content_lines : List Str) : Str × List Str :=
  match content_lines with
  | cl0 :: clrest =>
    if original_lang = [] then
      let p := pyStrip cl0
      if validate_identifier p (("first_part").data) ∧ ¬ p.contains ' ' then (p, clrest)
      else (original_lang, content_lines)
    else (original_lang, content_lines)
  | [] => (original_lang, content_lines)

/-- The title promotion of `_deconstruct_block` (markdown_repair.py
lines 216-224): a simple (single-token, non-sentinel) language tag is
extended with a first content line that strips to a valid title. -/
def promote_body_title (original_lang : Str) (content_lines : List Str) : Str × List Str :=
  match content_lines with
  | cl0 :: clrest =>
    if original_lang ≠ [] ∧ ¬ original_lang.contains ' ' ∧
        original_lang ≠ ("__INVALID__").data ∧ original_lang ≠ ("__DEMO__").data then
      let t := pyStrip cl0
      if t ≠ [] ∧ validate_identifier t (("title_line").data) then
        (original_lang ++ ' ' :: t, clrest)
      else (original_lang, content_lines)
    else (original_lang, content_lines)
  | [] => (original_lang, content_lines)

/-- The core of `_deconstruct_block` after the blank-line pops: header
parse, language promotion, title promotion, and the final join of the
header code parts with the remaining content lines. -/
def deconstruct_core (first_line : Str) (content_lines0 : List Str) : Str × Str :=
  let parsed := deconstruct_header first_line
  let promoted := promote_body_language parsed.1 content_lines0
  let titled := promote_body_title promoted.1 promoted.2
  (titled.1, joinLines (parsed.2 ++ titled.2))

/-- `CodeBlockProcessor._deconstruct_block` (markdown_repair.py lines
163-228), working on the already-split line list: pops a blank first and
last line, then runs the core on the first line and the inner lines. -/
def deconstruct_lines (lines0 : List Str) : Str × Str :=
  let lines1 :=
    match lines0 with
    | l :: rest => if pyStrip l = [] then rest else lines0
    | [] => ([] : List Str)
  let lines2 :=
    if h : lines1 ≠ [] then
      if pyStrip (lines1.getLast h) = [] then lines1.dropLast else lines1
    else lines1
  match lines2 with
  | [] => ([], [])
  | first_line :: restAll => deconstruct_core first_line restAll.dropLast

/-- `CodeBlockProcessor._deconstruct_block` on the raw block text. -/
def deconstruct_block (block_text : Str) : Str × Str :=
  deconstruct_lines (splitLines block_text)

/-- Word characters of Python's unicode `\w`: ASCII alphanumerics and
underscore, with every non-ASCII character (such as CJK) treated as a
word character. -/
def isWordChar (c : Char) : Bool :=
  ('a' ≤ c && c ≤ 'z') || ('A' ≤ c && c ≤ 'Z') || ('0' ≤ c && c ≤ '9') ||
    c = '_' || 127 < c.toNat

/-- Negative word lookbehind: holds when the previous character is
absent (start of string) or is not a word character. -/
def noWordBefore : Option Char → Bool
  | some p => ¬ isWordChar p
  | none => true

/-- Negative word lookahead: holds when the next character is absent
(end of string) or is not a word character. -/
def noWordAt : Str → Bool
  | [] => true
  | a :: _ => ¬ isWordChar a

/-- Fuel-driven scanner for
`re.sub(r'(?<!\w)\*\*(\w+)\*\*(?!\w)', r'\1', text)` of
`_clean_code_content`: a double asterisk pair around a maximal non-empty
word run, with a negative word lookbehind and lookahead; `prev` is the
character preceding the current position in the original string. -/
def boldWordSubF : Nat → Option Char → Str → Str
  | 0, _, _ => []
  | _ + 1, _, [] => []
  | fuel + 1, prev, c :: rest =>
    if c = '*' && noWordBefore prev then
      match rest with
      | c2 :: rest2 =>
        if c2 = '*' then
          let w := rest2.takeWhile isWordChar
          let after := rest2.drop w.length
          if w ≠ [] ∧ after.take 2 = ['*', '*'] ∧ noWordAt (after.drop 2) then
            w ++ boldWordSubF fuel (some '*') (after.drop 2)
          else c :: boldWordSubF fuel (some c) rest
        else c :: boldWordSubF fuel (some c) rest
      | [] => c :: boldWordSubF fuel (some c) rest
    else c :: boldWordSubF fuel (some c) rest

/-- Fuel-driven scanner for
`re.sub(r'(?<!\w)\*(\w+)\*(?!\w)', r'\1', text)` of `_clean_code_content`. -/
def italicWordSubF : Nat → Option Char → Str → Str
  | 0, _, _ => []
  | _ + 1, _, [] => []
  | fuel + 1, prev, c :: rest =>
    if c = '*' && noWordBefore prev then
      let w := rest.takeWhile isWordChar
      let after := rest.drop w.length
      if w ≠ [] ∧ after.take 1 = ['*'] ∧ noWordAt (after.drop 1) then
        w ++ italicWordSubF fuel (some '*') (after.drop 1)
      else c :: italicWordSubF fuel (some c) rest
    else c :: italicWordSubF fuel (some c) rest

/-- `CodeBlockProcessor._clean_code_content` (markdown_repair.py lines
99-109): first removes bold `**word**` pairs, then italic `*word*`
pairs, both guarded by word lookarounds. -/
def clean_code_content (code_text : Str) : Str :=
  let b := boldWordSubF (code_text.length + 1) none code_text
  italicWordSubF (b.length + 1) none b

/-- Fuel-driven scanner for the operator-spacing substitution of
`_format_code_content` (the pattern whose operator class holds the four
characters equals, plus, minus and slash, surrounded by whitespace):
a maximal whitespace run, one operator character, and the following
maximal whitespace run are replaced by the operator with one space on
each side. -/
def opSpaceSubF : Nat → Str → Str
  | 0, _ => []
  | fuel + 1, s =>
    let w := s.takeWhile isPyWs
    match s.drop w.length with
    | [] => w
    | c :: rest2 =>
      if c = '=' ∨ c = '+' ∨ c = '-' ∨ c = '/' then
        ' ' :: c :: ' ' :: opSpaceSubF fuel (rest2.drop (rest2.takeWhile isPyWs).length)
      else w ++ c :: opSpaceSubF fuel rest2

/-- The eight compound-operator re-joins of `_format_code_content`
(markdown_repair.py lines 135-142), in source order. -/
def compound_fix (s : Str) : Str :=
  listReplace (("- -").data) (("--").data)
    (listReplace (("+ +").data) (("++").data)
      (listReplace (("! =").data) (("!=").data)
        (listReplace (("= =").data) (("==").data)
          (listReplace (("/ =").data) (("/=").data)
            (listReplace (("* =").data) (("*=").data)
              (listReplace (("- =").data) (("-=").data)
                (listReplace (("+ =").data) (("+=").data) s)))))))

/-- One line of `CodeBlockProcessor._format_code_content`: given the
current indent level, returns the new level and the emitted line.
Separator lines (`-{3,}` after stripping) pass through untouched. -/
def format_code_line (level : Nat) (line : Str) : Nat × Str :=
  let trimmed_for_check := pyStrip line
  if trimmed_for_check.all (fun c => c = '-') ∧ 3 ≤ trimmed_for_check.length then
    (level, line)
  else
    let processed := compound_fix (opSpaceSubF (line.length + 1) line)
    let trimmed := pyStrip processed
    let level1 :=
      match trimmed with
      | c :: _ => if c = rbraceChar then level - 1 else level
      | [] => level
    let out := List.replicate (level1 * 4) ' ' ++ trimmed
    let opens := (trimmed.filter (fun c => c = lbraceChar)).length
    let closes := (trimmed.filter (fun c => c = rbraceChar)).length
    (((level1 : Int) + opens - closes).toNat, out)

/-- Line-list driver for `_format_code_content`, threading the indent
level through the lines. -/
def format_code_linesGo (level : Nat) : List Str → List Str
  | [] => []
  | l :: rest =>
    let step := format_code_line level l
    step.2 :: format_code_linesGo step.1 rest

/-- `CodeBlockProcessor._format_code_content` (markdown_repair.py lines
111-161). -/
def format_code_content (code_text : Str) : Str :=
  joinLines (format_code_linesGo 0 (splitLines code_text))

/-- The run configuration of `CodeBlockProcessor` fixed by the initial
prompts of `run`: the chosen mode (`'all'` versus `'individual'`), the
uniform target language, the default fix-up language, and the
formatting switch (markdown_repair.py lines 37-44 and 315-339). -/
structure RepairConfig where
  mode_all : Bool
  target_lang_all : Str
  default_lang : Str
  format_code : Bool

/-- `CodeBlockProcessor._get_target_language` (markdown_repair.py lines
230-248).  In `'all'` mode the configured uniform tag is returned; in
individual mode the interactive prompt is modelled by the oracle,
indexed by the current block count. -/
def get_target_language (cfg : RepairConfig) (oracle : Nat → Str) (block_count : Nat)
    (original_lang : Str) : Str :=
  if cfg.mode_all then cfg.target_lang_all
  else
    let user_input := pyLower (pyStrip (oracle block_count))
    if user_input = ("none").data then []
    else if user_input ≠ [] then user_input else original_lang

/-- The placeholder-marker step of the defaulting branch of
`CodeBlockProcessor._replacement_callback` (markdown_repair.py lines
278-281): prepend the marker line only when the stripped body does not
already start with it. -/
def default_final_code (clean_code : Str) : Str :=
  if ¬ ("演示").data.isPrefixOf (pyStrip clean_code) then
    if clean_code ≠ [] then ("演示\n").data ++ clean_code else ("演示").data
  else clean_code

/-- `CodeBlockProcessor._replacement_callback` (markdown_repair.py lines
250-289), for the block with (1-based) index `block_count`. -/
def replacement_callback (cfg : RepairConfig) (oracle : Nat → Str) (block_count : Nat)
    (full_block_text : Str) : Str :=
  let d := deconstruct_block full_block_text
  let original_lang := d.1
  let cleaned := clean_code_content d.2
  let clean_code := if cfg.format_code then format_code_content cleaned else cleaned
  let needs_fixing :=
    original_lang = ("__INVALID__").data ∨ original_lang = ("__DEMO__").data ∨
      original_lang = []
  let tf : Str × Str :=
    if needs_fixing then (cfg.default_lang, default_final_code clean_code)
    else (get_target_language cfg oracle block_count original_lang, clean_code)
  let final_code := pyStrip tf.2
  if tf.1 ≠ [] then ("```").data ++ tf.1 ++ '\n' :: final_code ++ ("\n```").data
  else ("```\n").data ++ final_code ++ ("\n```").data

/-- Match of `^(```\s*)(```.*)$` (MULTILINE) at a line start, as used by
`_pre_process_fused_blocks`: a fence, a maximal whitespace run (which may
span newlines), and a second fence with the rest of its line; returns the
two capture groups and the remainder. -/
def fused_match (cs : Str) : Option (Str × Str × Str) :=
  if ("```").data.isPrefixOf cs then
    let rest := cs.drop 3
    let w := rest.takeWhile isPyWs
    let rest2 := rest.drop w.length
    if ("```").data.isPrefixOf rest2 then
      let tailLine := (rest2.drop 3).takeWhile (fun c => ¬ c = '\n')
      some (("```").data ++ w, ("```").data ++ tailLine, (rest2.drop 3).drop tailLine.length)
    else none
  else none

/-- Fuel-driven scanner of `_pre_process_fused_blocks`: at each line
start, a fused-fence match is replaced by its first group, a newline,
and its second group. -/
def preFusedF : Nat → Bool → Str → Str
  | 0, _, _ => []
  | _ + 1, _, [] => []
  | fuel + 1, atStart, c :: rest =>
    if atStart then
      match fused_match (c :: rest) with
      | some (g1, g2, rest') => g1 ++ '\n' :: (g2 ++ preFusedF fuel false rest')
      | none => c :: preFusedF fuel (c = '\n') rest
    else c :: preFusedF fuel (c = '\n') rest

/-- `CodeBlockProcessor._pre_process_fused_blocks` (markdown_repair.py
lines 46-58): `re.sub(r"^(```\s*)(```.*)$", r"\1\n\2", text, MULTILINE)`. -/
def pre_process_fused_blocks (s : Str) : Str := preFusedF (s.length + 1) true s

/-- The two block kinds tracked by the scanner of `run` (step 2). -/
inductive BlockType where
  | standard : BlockType
  | dashed : BlockType
deriving DecidableEq

/-- The `if buffer:` epilogue of the scanner of `run` (markdown_repair.py
lines 383-390): a dangling standard block is re-emitted joined; a
dangling dashed block is re-emitted as a forty-dash rule plus its
buffered lines; an empty buffer contributes nothing. -/
def scan_epilogue (buffer : List Str) (ib : Option BlockType) : List Str :=
  if buffer = [] then []
  else
    match ib with
    | some BlockType.standard => [joinLines buffer]
    | some BlockType.dashed => List.replicate 40 '-' :: buffer
    | none => []

/-- The line loop of step 2 of `CodeBlockProcessor.run` (markdown_repair.py
lines 353-390), producing the list of output parts. -/
def scanLinesGo (buffer : List Str) (ib : Option BlockType) : List Str → List Str
  | [] => scan_epilogue buffer ib
  | line :: rest =>
    match ib with
    | some BlockType.standard =>
      if is_standard_delimiter line then
        joinLines (buffer ++ [line]) :: scanLinesGo [] none rest
      else scanLinesGo (buffer ++ [line]) (some BlockType.standard) rest
    | some BlockType.dashed =>
      if is_dashed_delimiter line then
        process_dashed_content (joinLines buffer) :: scanLinesGo [] none rest
      else scanLinesGo (buffer ++ [line]) (some BlockType.dashed) rest
    | none =>
      if is_standard_delimiter line then scanLinesGo [line] (some BlockType.standard) rest
      else if is_dashed_delimiter line then scanLinesGo [] (some BlockType.dashed) rest
      else line :: scanLinesGo [] none rest

/-- Step 2 of `CodeBlockProcessor.run` as a text-to-text stage: the
Fence Scanner. -/
def scan_stage (text : Str) : Str :=
  joinLines (scanLinesGo [] none (splitLines text))

/-- Search for the lazy closer of `^```[\s\S]+?^```` (MULTILINE): the
first newline that is immediately followed by three backticks; returns
the consumed interior (ending with that newline) and the remainder after
the closing fence. -/
def find_block_closer : Str → Option (Str × Str)
  | [] => none
  | c :: rest =>
    if c = '\n' ∧ rest.take 3 = ("```").data then some ([c], rest.drop 3)
    else
      match find_block_closer rest with
      | some (inner, r) => some (c :: inner, r)
      | none => none

/-- Fuel-driven scanner of
`block_finder_regex.sub(self._replacement_callback, text)` of step 3 of
`run`: at each line start beginning with a fence, the lazily-closed block
is passed to the callback with the running 1-based block count. -/
def block_finder_subF (cb : Nat → Str → Str) : Nat → Nat → Bool → Str → Str
  | 0, _, _, _ => []
  | _ + 1, _, _, [] => []
  | fuel + 1, n, atStart, c :: rest =>
    if atStart ∧ (c :: rest).take 3 = ("```").data then
      match find_block_closer ((c :: rest).drop 3) with
      | some (inner, rest') =>
        cb n (("```").data ++ inner ++ ("```").data) ++
          block_finder_subF cb fuel (n + 1) false rest'
      | none => c :: block_finder_subF cb fuel n (c = '\n') rest
    else c :: block_finder_subF cb fuel n (c = '\n') rest

/-- Step 3 of `CodeBlockProcessor.run`: the block-finder substitution. -/
def block_finder_sub (cb : Nat → Str → Str) (s : Str) : Str :=
  block_finder_subF cb (s.length + 1) 1 true s

/-- `CodeBlockProcessor._fix_unterminated_blocks` (markdown_repair.py
lines 291-311).  The `Bool` component records whether the warning was
printed (and the closing fence appended). -/
def fix_unterminated_blocks (text : Str) : Str × Bool :=
  let in_block := (splitLines text).foldl
    (fun b line => if is_standard_delimiter line then !b else b) false
  if in_block then (pyRstrip text ++ ("\n```\n").data, true) else (text, false)

/-- `CodeBlockProcessor.run` (markdown_repair.py lines 313-402) after the
initial mode/language prompts fixed by `cfg`: pre-fusion repair, the
fence scanner, the block-finder substitution with the replacement
callback, and the final unterminated-block fix. -/
def run_repair (cfg : RepairConfig) (oracle : Nat → Str) (markdown_text : Str) : Str :=
  let t1 := pre_process_fused_blocks markdown_text
  let t2 := scan_stage t1
  let t3 := block_finder_sub (replacement_callback cfg oracle) t2
  (fix_unterminated_blocks t3).1

/-!
Embedding of `SourceCode/markdown_cleaner.py`, class `MarkdownCleaner`
(the code-block cleaning callback and the helpers it reaches).
-/

/-- `c_family_langs` of `MarkdownCleaner._clean_code_block_content`
(markdown_cleaner.py lines 229-231). -/
def c_family_langs : List Str :=
  [("c").data, ("cpp").data, ("c++").data, ("java").data,
   ("javascript").data, ("js").data, ("c#").data, ("cs").data]

/-- Earliest lazy double-quoted span for `re.split(r'(".*?")', line)`:
the text before the first quote, the quoted span, and the remainder. -/
def findQuotePair (s : Str) : Option (Str × Str × Str) :=
  let pre := s.takeWhile (fun c => ¬ c = '"')
  match s.drop pre.length with
  | q1 :: rest =>
    let mid := rest.takeWhile (fun c => ¬ c = '"')
    (match rest.drop mid.length with
     | q2 :: rest2 => some (pre, q1 :: (mid ++ [q2]), rest2)
     | [] => none)
  | [] => none

/-- Fuel-driven `re.split(r'(".*?")', line)`: alternating non-literal and
string-literal parts (the capturing group keeps the literals). -/
def splitLitsF : Nat → Str → List Str
  | 0, _ => []
  | fuel + 1, s =>
    match findQuotePair s with
    | some (pre, lit, rest) => pre :: lit :: splitLitsF fuel rest
    | none => [s]

/-- Fuel-driven scanner for `re.sub(r'\s*OP\s*', rep, part)` with a
literal multi-character operator `OP`: a maximal whitespace run, the
operator, and the following maximal whitespace run are replaced by
`rep`. -/
def opSubWithF (op rep : Str) : Nat → Str → Str
  | 0, _ => []
  | fuel + 1, s =>
    let w := s.takeWhile isPyWs
    match s.drop w.length with
    | [] => w
    | c :: rest2 =>
      if op ≠ [] ∧ op.isPrefixOf (c :: rest2) then
        let after := (c :: rest2).drop op.length
        rep ++ opSubWithF op rep fuel (after.drop (after.takeWhile isPyWs).length)
      else w ++ c :: opSubWithF op rep fuel rest2

/-- One operator-spacing substitution of `_format_line_spacing`. -/
def opSubWith (op rep s : Str) : Str := opSubWithF op rep (s.length + 1) s

/-- The `operators` list of `MarkdownCleaner._format_line_spacing`
(markdown_cleaner.py lines 109-113), in source order. -/
def spacing_operators : List Str :=
  [("==").data, ("!=").data, ("<=").data, (">=").data, ("&&").data,
   ("||").data, ("+=").data, ("-=").data, ("*=").data, ("/=").data,
   ("%=").data, ("&=").data, ("|=").data, ("^=").data, ("<<=").data,
   (">>=").data, ("=").data, (">").data, ("<").data, ("+").data,
   ("-").data, ("/").data, ("%").data, ("&").data, ("|").data,
   ("^").data, ("?").data, (":").data]

/-- The control-flow keywords of the final substitution of
`_format_line_spacing`, in alternation order. -/
def control_keywords : List Str :=
  [("if").data, ("for").data, ("while").data, ("switch").data]

/-- Try the keyword alternation at the current position: a keyword, a
maximal whitespace run, and an opening parenthesis. -/
def keywordTry : List Str → Str → Option (Str × Str)
  | [], _ => none
  | kw :: kws, s =>
    if kw.isPrefixOf s then
      let after := s.drop kw.length
      (match after.drop (after.takeWhile isPyWs).length with
       | c :: r => if c = '(' then some (kw, r) else keywordTry kws s
       | [] => keywordTry kws s)
    else keywordTry kws s

/-- Fuel-driven scanner for
`re.sub(r'\b(if|for|while|switch)\s*\(', r'\1 (', part)`: a word
boundary, a keyword, optional whitespace and `(` become the keyword, one
space and `(`. -/
def keywordParenSubF : Nat → Option Char → Str → Str
  | 0, _, _ => []
  | _ + 1, _, [] => []
  | fuel + 1, prev, c :: rest =>
    if noWordBefore prev then
      match keywordTry control_keywords (c :: rest) with
      | some (kw, r) => kw ++ ' ' :: '(' :: keywordParenSubF fuel (some '(') r
      | none => c :: keywordParenSubF fuel (some c) rest
    else c :: keywordParenSubF fuel (some c) rest

/-- Fuel-driven scanner for the final whitespace collapse of
`_format_line_spacing`: every whitespace run of length at least two
becomes a single space. -/
def collapseWsF : Nat → Str → Str
  | 0, _ => []
  | _ + 1, [] => []
  | fuel + 1, c :: rest =>
    if isPyWs c then
      let run := (c :: rest).takeWhile isPyWs
      if 2 ≤ run.length then ' ' :: collapseWsF fuel ((c :: rest).drop run.length)
      else c :: collapseWsF fuel rest
    else c :: collapseWsF fuel rest

/-- The per-part body of the loop of `_format_line_spacing` for the
even-indexed (non-literal) parts: arrow protection, the operator
substitutions, comma and semicolon spacing, arrow restoration and the
keyword substitution, in source order. -/
def format_nonliteral_part (part : Str) : Str :=
  let p1 := listReplace (("->").data) (("TEMP_ARROW").data) part
  let p2 := spacing_operators.foldl (fun acc op => opSubWith op (' ' :: (op ++ [' '])) acc) p1
  let p3 := opSubWith ((",").data) ((", ").data) p2
  let p4 := opSubWith ((";").data) (("; ").data) p3
  let p5 := listReplace (("TEMP_ARROW").data) (("->").data) p4
  keywordParenSubF (p5.length + 1) none p5

/-- The joining loop of `_format_line_spacing`: odd-indexed parts (the
string literals) pass through, even-indexed parts are formatted. -/
def format_parts (isLit : Bool) : List Str → Str
  | [] => []
  | p :: rest =>
    (if isLit then p else format_nonliteral_part p) ++ format_parts (!isLit) rest

/-- `MarkdownCleaner._format_line_spacing` (markdown_cleaner.py lines
98-124). -/
def format_line_spacing (line : Str) : Str :=
  let joined := format_parts false (splitLitsF (line.length + 1) line)
  pyStrip (collapseWsF (joined.length + 1) joined)

/-- One line of `MarkdownCleaner._format_code_indentation`: given the
current indent level, returns the new level and the emitted line. -/
def format_indent_line (level : Nat) (line : Str) : Nat × Str :=
  let clean_line := pyStrip line
  if clean_line = [] then (level, [])
  else
    let formatted := format_line_spacing clean_line
    let level1 :=
      if ([rbraceChar]).isPrefixOf clean_line ∨ ("case ").data.isPrefixOf clean_line ∨
          ("default:").data.isPrefixOf clean_line then level - 1
      else level
    let out := List.replicate (level1 * 4) ' ' ++ formatted
    let level2 :=
      if clean_line.getLast? = some lbraceChar ∨ clean_line.getLast? = some ':' then level1 + 1
      else level1
    (level2, out)

/-- Line-list driver for `_format_code_indentation`. -/
def format_indent_linesGo (level : Nat) : List Str → List Str
  | [] => []
  | l :: rest =>
    let step := format_indent_line level l
    step.2 :: format_indent_linesGo step.1 rest

/-- `MarkdownCleaner._format_code_indentation` (markdown_cleaner.py lines
126-145). -/
def format_code_indentation (code_text : Str) : Str :=
  joinLines (format_indent_linesGo 0 (splitLines code_text))

/-- The start alternation of `_MALFORMED_COMMENT_PATTERN`: an asterisk,
whitespace, slash, asterisk - or an asterisk, slash, whitespace,
asterisk - tried in that order; at most one alternative can match (or
both with the same span), so the match is deterministic. -/
def malformed_delim_start (s : Str) : Option Str :=
  match s with
  | '*' :: r1 =>
    (match r1.drop (r1.takeWhile isPyWs).length with
     | '/' :: '*' :: r2 => some r2
     | _ =>
       match r1 with
       | '/' :: r3 =>
         (match r3.drop (r3.takeWhile isPyWs).length with
          | '*' :: r4 => some r4
          | _ => none)
       | _ => none)
  | _ => none

/-- The end alternation of `_MALFORMED_COMMENT_PATTERN`: the same two
delimiter shapes tried in the opposite order. -/
def malformed_delim_end (s : Str) : Option Str :=
  match s with
  | '*' :: r1 =>
    (match r1 with
     | '/' :: r3 =>
       (match r3.drop (r3.takeWhile isPyWs).length with
        | '*' :: r4 => some r4
        | _ =>
          match r1.drop (r1.takeWhile isPyWs).length with
          | '/' :: '*' :: r2 => some r2
          | _ => none)
     | _ =>
       match r1.drop (r1.takeWhile isPyWs).length with
       | '/' :: '*' :: r2 => some r2
       | _ => none)
  | _ => none

/-- At a candidate end of the lazy body group: the maximal whitespace
run, the end delimiter, and the trailing whitespace-to-line-end; returns
the remainder after the full match when all of them fit. -/
def malformed_try_end (s : Str) : Option Str :=
  match malformed_delim_end (s.drop (s.takeWhile isPyWs).length) with
  | some afterEnd => matchWs afterEnd
  | none => none

/-- Lazy search for the body group of `_MALFORMED_COMMENT_PATTERN`: the
shortest body such that the end delimiter and trailing whitespace
complete the match (the DOTALL body may span newlines). -/
def malformed_find_body (s : Str) : Option (Str × Str) :=
  match malformed_try_end s with
  | some rest => some ([], rest)
  | none =>
    match s with
    | [] => none
    | c :: r =>
      match malformed_find_body r with
      | some pr => some (c :: pr.1, pr.2)
      | none => none

/-- Full match of `_MALFORMED_COMMENT_PATTERN` at a line start: leading
whitespace, the start delimiter, whitespace, the lazy body, whitespace,
the end delimiter and trailing whitespace; returns the raw body group
and the remainder. -/
def malformed_match_at (s : Str) : Option (Str × Str) :=
  match malformed_delim_start (s.drop (s.takeWhile isPyWs).length) with
  | some afterStart => malformed_find_body (afterStart.drop (afterStart.takeWhile isPyWs).length)
  | none => none

/-- Fuel-driven driver of
`_MALFORMED_COMMENT_PATTERN.sub(_clean_malformed_comment, text)`
(markdown_cleaner.py lines 77-96 and 181-182): each match is rewritten
to the canonical comment form around the stripped body. -/
def malformedCommentSubF : Nat → Bool → Str → Str
  | 0, _, _ => []
  | _ + 1, _, [] => []
  | fuel + 1, atStart, c :: rest =>
    if atStart then
      match malformed_match_at (c :: rest) with
      | some (g2, rem) =>
        ("/* ").data ++ pyStrip g2 ++ (" */").data ++ malformedCommentSubF fuel false rem
      | none => c :: malformedCommentSubF fuel (c = '\n') rest
    else c :: malformedCommentSubF fuel (c = '\n') rest

/-- Greedy search for the closing asterisk of
`_SINGLE_LINE_COMMENT_EMPHASIS_PATTERN`: the longest dot-run (never
crossing a newline) whose following asterisk is succeeded by
whitespace reaching a line end. -/
def findStarCloseSL : Str → Option (Str × Str)
  | [] => none
  | c :: rest =>
    if c = '\n' then none
    else
      match findStarCloseSL rest with
      | some pr => some (c :: pr.1, pr.2)
      | none =>
        if c = '*' then
          match matchWs rest with
          | some r => some ([], r)
          | none => none
        else none

/-- Match of `_SINGLE_LINE_COMMENT_EMPHASIS_PATTERN`
(`^\s*\*(//.*)\*\s*$`, MULTILINE) at a line start: returns the group
(the comment without the surrounding asterisks) and the remainder. -/
def slc_match_at (s : Str) : Option (Str × Str) :=
  match s.drop (s.takeWhile isPyWs).length with
  | '*' :: '/' :: '/' :: r2 =>
    (match findStarCloseSL r2 with
     | some (content, rem) => some (("//").data ++ content, rem)
     | none => none)
  | _ => none

/-- Fuel-driven driver of the single-line-comment emphasis repair
(markdown_cleaner.py lines 85-86 and 185-187). -/
def singleLineCommentSubF : Nat → Bool → Str → Str
  | 0, _, _ => []
  | _ + 1, _, [] => []
  | fuel + 1, atStart, c :: rest =>
    if atStart then
      match slc_match_at (c :: rest) with
      | some (g1, rem) => g1 ++ singleLineCommentSubF fuel false rem
      | none => c :: singleLineCommentSubF fuel (c = '\n') rest
    else c :: singleLineCommentSubF fuel (c = '\n') rest

/-- Earliest double asterisk, for the lazy body of
`re.sub(r'\*\*(.*?)\*\*', ..., DOTALL)`. -/
def findDoubleStar : Str → Option (Str × Str)
  | [] => none
  | c :: rest =>
    if c = '*' ∧ rest.take 1 = ['*'] then some ([], rest.drop 1)
    else
      match findDoubleStar rest with
      | some pr => some (c :: pr.1, pr.2)
      | none => none

/-- Fuel-driven driver of the bold-markup removal of
`_clean_code_block_content` step 5 (markdown_cleaner.py lines 194-197). -/
def boldPairSubF : Nat → Str → Str
  | 0, _ => []
  | _ + 1, [] => []
  | fuel + 1, c :: rest =>
    if c = '*' ∧ rest.take 1 = ['*'] then
      match findDoubleStar (rest.drop 1) with
      | some (b, rem) => b ++ boldPairSubF fuel rem
      | none => c :: boldPairSubF fuel rest
    else c :: boldPairSubF fuel rest

/-- Earliest close of a block comment, for the lazy body of
`/\*.*?\*/`. -/
def findCommentClose : Str → Option (Str × Str)
  | [] => none
  | c :: rest =>
    if c = '*' ∧ rest.take 1 = ['/'] then some ([], rest.drop 1)
    else
      match findCommentClose rest with
      | some pr => some (c :: pr.1, pr.2)
      | none => none

/-- Match of the comment pattern of step 6 of
`_clean_code_block_content` at the current position:
`/\*.*?\*/|//.*` compiled with DOTALL, so a line comment swallows the
whole remainder of the text. -/
def commentMatchAt (s : Str) : Option (Str × Str) :=
  match s with
  | '/' :: '*' :: r =>
    (match findCommentClose r with
     | some (b, rem) => some (("/*").data ++ b ++ ("*/").data, rem)
     | none => none)
  | '/' :: '/' :: _ => some (s, [])
  | _ => none

/-- The placeholder token for the `i`-th protected comment. -/
def placeholderStr (i : Nat) : Str :=
  ("__COMMENT_PLACEHOLDER_").data ++ (Nat.repr i).data ++ ("__").data

/-- Fuel-driven comment protection of step 6: replaces every comment
match by its placeholder and collects the comments in order. -/
def protectCommentsF : Nat → Nat → Str → Str × List Str
  | 0, _, _ => ([], [])
  | _ + 1, _, [] => ([], [])
  | fuel + 1, idx, c :: rest =>
    match commentMatchAt (c :: rest) with
    | some (com, rem) =>
      let r := protectCommentsF fuel (idx + 1) rem
      (placeholderStr idx ++ r.1, com :: r.2)
    | none =>
      let r := protectCommentsF fuel idx rest
      (c :: r.1, r.2)

/-- Characters of the range excluded by the italic-stripping class of
step 6 (the CJK block U+4E00 to U+9FA5). -/
def isCJKChar (c : Char) : Bool := 0x4E00 ≤ c.toNat && c.toNat ≤ 0x9FA5

/-- Fuel-driven driver of the italic removal of step 6: an asterisk, a
maximal non-empty run of characters that are neither asterisks nor CJK,
and a closing asterisk, replaced by the run. -/
def italicNoCJKSubF : Nat → Str → Str
  | 0, _ => []
  | _ + 1, [] => []
  | fuel + 1, c :: rest =>
    if c = '*' then
      let w := rest.takeWhile (fun ch => ¬ (ch = '*' || isCJKChar ch))
      if w ≠ [] ∧ (rest.drop w.length).take 1 = ['*'] then
        w ++ italicNoCJKSubF fuel ((rest.drop w.length).drop 1)
      else c :: italicNoCJKSubF fuel rest
    else c :: italicNoCJKSubF fuel rest

/-- The restoring loop of step 6: the `i`-th placeholder is replaced by
the `i`-th collected comment, in order. -/
def restoreCommentsGo (i : Nat) (s : Str) : List Str → Str
  | [] => s
  | com :: rest => restoreCommentsGo (i + 1) (listReplace (placeholderStr i) com s) rest

/-- Canonical re-emission of a fenced block used by the cleaning
callback. -/
def mkFencedBlock (lang body : Str) : Str :=
  ("```").data ++ lang ++ '\n' :: body ++ ("\n```").data

/-- Steps 1 through 6 of `MarkdownCleaner._clean_code_block_content`
(markdown_cleaner.py lines 171-226): backslash removal, malformed
comment repair, single-line comment repair, bracket unescaping, bold
removal, and comment-protected italic removal. -/
def normalize_code_body (content : Str) : Str :=
  let s1 := subLineCont content
  let s2 := malformedCommentSubF (s1.length + 1) true s1
  let s3 := singleLineCommentSubF (s2.length + 1) true s2
  let s4 := listReplace (("\\[").data) (("[").data) s3
  let s5 := listReplace (("\\]").data) (("]").data) s4
  let s6 := boldPairSubF (s5.length + 1) s5
  let prot := protectCommentsF (s6.length + 1) 0 s6
  let s7 := italicNoCJKSubF (prot.1.length + 1) prot.1
  restoreCommentsGo 0 s7 prot.2

/-- `MarkdownCleaner._clean_code_block_content` (markdown_cleaner.py
lines 171-237): the cleaning steps followed by the brace-family-gated
formatting step. -/
def clean_code_block_content (langRaw content : Str) : Str :=
  let lang := pyLower langRaw
  let cleaned := normalize_code_body content
  if c_family_langs.contains lang then
    mkFencedBlock lang (pyStrip (format_code_indentation cleaned))
  else mkFencedBlock lang (pyStrip cleaned)

/-!
Specification-view segmentation of the Fence Scanner (section 4.1 of the
specification): the document decomposes into plain lines, standard-fence
spans, dashed-block spans and a possible dangling span at the end.  The
scanner of `run` is proved below to agree with this decomposition.
-/

/-- A segment of the document, as described by the specification:
plain text, a closed standard-fence span (delimiters included), a closed
dashed span (delimiters and buffered content kept separately), or an
unclosed span at the end of input. -/
inductive Seg where
  | plain (l : Str) : Seg
  | std (ls : List Str) : Seg
  | dashedBlock (openD : Str) (content : List Str) (closeD : Str) : Seg
  | danglingStd (ls : List Str) : Seg
  | danglingDashed (openD : Str) (content : List Str) : Seg

/-- The original input lines a segment was built from. -/
def Seg.orig : Seg → List Str
  | Seg.plain l => [l]
  | Seg.std ls => ls
  | Seg.dashedBlock o c cl => o :: (c ++ [cl])
  | Seg.danglingStd ls => ls
  | Seg.danglingDashed o c => o :: c

/-- The output parts the scanner of `run` emits for a segment: plain
lines and standard spans verbatim, dashed spans converted, a dangling
dashed span re-emitted as a forty-dash rule plus its buffered lines
(nothing at all when the buffer is empty). -/
def Seg.renderParts : Seg → List Str
  | Seg.plain l => [l]
  | Seg.std ls => [joinLines ls]
  | Seg.dashedBlock _ c _ => [process_dashed_content (joinLines c)]
  | Seg.danglingStd ls => [joinLines ls]
  | Seg.danglingDashed _ c => if c = [] then [] else List.replicate 40 '-' :: c

/-- Split a line list at the first line satisfying `p`. -/
def splitUntil (p : Str → Bool) : List Str → Option (List Str × Str × List Str)
  | [] => none
  | x :: xs =>
    if p x then some ([], x, xs)
    else
      match splitUntil p xs with
      | some (m, d, r) => some (x :: m, d, r)
      | none => none

/-- Fuel-driven segmentation of a line list according to the
specification's three-state description of the Fence Scanner. -/
def segmentsOfF : Nat → List Str → List Seg
  | 0, _ => []
  | _ + 1, [] => []
  | fuel + 1, l :: rest =>
    if is_standard_delimiter l then
      match splitUntil is_standard_delimiter rest with
      | some (mid, closer, rest') => Seg.std (l :: (mid ++ [closer])) :: segmentsOfF fuel rest'
      | none => [Seg.danglingStd (l :: rest)]
    else if is_dashed_delimiter l then
      match splitUntil is_dashed_delimiter rest with
      | some (mid, closer, rest') => Seg.dashedBlock l mid closer :: segmentsOfF fuel rest'
      | none => [Seg.danglingDashed l rest]
    else Seg.plain l :: segmentsOfF fuel rest

/-- Segmentation of a line list. -/
def segmentsOf (lines : List Str) : List Seg := segmentsOfF (lines.length + 1) lines

theorem splitUntil_eq {p : Str → Bool} :
    ∀ {ls m d r}, splitUntil p ls = some (m, d, r) → ls = m ++ d :: r := by
  intro ls
  induction ls with
  | nil => intro m d r h; simp [splitUntil] at h
  | cons x xs ih =>
    intro m d r h
    simp only [splitUntil] at h
    by_cases hp : p x
    · rw [if_pos hp] at h
      injection h with h
      injection h with h1 h
      injection h with h2 h3
      subst h1; subst h2; subst h3; rfl
    · rw [if_neg hp] at h
      cases hs : splitUntil p xs with
      | none => rw [hs] at h; exact absurd h (by simp)
      | some v =>
        obtain ⟨m', d', r'⟩ := v
        rw [hs] at h
        injection h with h
        injection h with h1 h
        injection h with h2 h3
        subst h2; subst h3
        rw [← h1, ih hs]
        rfl

theorem splitUntil_length {p : Str → Bool} {ls m d r}
    (h : splitUntil p ls = some (m, d, r)) : r.length < ls.length := by
  have := splitUntil_eq h
  subst this
  simp
  omega

theorem segmentsOfF_orig :
    ∀ fuel ls, ls.length < fuel → (segmentsOfF fuel ls).flatMap Seg.orig = ls := by
  intro fuel
  induction fuel with
  | zero => intro ls h; omega
  | succ fuel ih =>
    intro ls h
    match ls with
    | [] => rfl
    | l :: rest =>
      simp only [segmentsOfF]
      by_cases h1 : is_standard_delimiter l
      · rw [if_pos h1]
        cases hs : splitUntil is_standard_delimiter rest with
        | some v =>
          obtain ⟨m, d, r⟩ := v
          have he := splitUntil_eq hs
          have hl := splitUntil_length hs
          simp only [List.flatMap_cons, Seg.orig]
          rw [ih r (by simp at h; omega)]
          simp [he]
        | none => simp [Seg.orig]
      · rw [if_neg h1]
        by_cases h2 : is_dashed_delimiter l
        · rw [if_pos h2]
          cases hs : splitUntil is_dashed_delimiter rest with
          | some v =>
            obtain ⟨m, d, r⟩ := v
            have he := splitUntil_eq hs
            have hl := splitUntil_length hs
            simp only [List.flatMap_cons, Seg.orig]
            rw [ih r (by simp at h; omega)]
            simp [he]
          | none => simp [Seg.orig]
        · rw [if_neg h2]
          simp only [List.flatMap_cons, Seg.orig]
          rw [ih rest (by simp at h; omega)]
          rfl

theorem scanLinesGo_std :
    ∀ (ls : List Str) (buf : List Str), buf ≠ [] →
      scanLinesGo buf (some BlockType.standard) ls =
        (match splitUntil is_standard_delimiter ls with
         | some (m, d, r) => joinLines (buf ++ m ++ [d]) :: scanLinesGo [] none r
         | none => [joinLines (buf ++ ls)]) := by
  intro ls
  induction ls with
  | nil =>
    intro buf hb
    simp [scanLinesGo, scan_epilogue, splitUntil, hb]
  | cons line rest ih =>
    intro buf hb
    simp only [scanLinesGo, splitUntil]
    by_cases hp : is_standard_delimiter line
    · simp [hp]
    · rw [if_neg hp, if_neg (by simpa using hp)]
      rw [ih (buf ++ [line]) (by simp)]
      cases hs : splitUntil is_standard_delimiter rest with
      | some v =>
        obtain ⟨m, d, r⟩ := v
        simp
      | none => simp

theorem scanLinesGo_dashed :
    ∀ (ls : List Str) (buf : List Str),
      scanLinesGo buf (some BlockType.dashed) ls =
        (match splitUntil is_dashed_delimiter ls with
         | some (m, _d, r) =>
             process_dashed_content (joinLines (buf ++ m)) :: scanLinesGo [] none r
         | none =>
             if buf ++ ls = [] then [] else List.replicate 40 '-' :: (buf ++ ls)) := by
  intro ls
  induction ls with
  | nil =>
    intro buf
    by_cases hb : buf = []
    · simp [scanLinesGo, scan_epilogue, splitUntil, hb]
    · simp [scanLinesGo, scan_epilogue, splitUntil, hb]
  | cons line rest ih =>
    intro buf
    simp only [scanLinesGo, splitUntil]
    by_cases hp : is_dashed_delimiter line
    · simp [hp]
    · rw [if_neg (by simpa using hp), if_neg hp]
      rw [ih (buf ++ [line])]
      cases hs : splitUntil is_dashed_delimiter rest with
      | some v =>
        obtain ⟨m, d, r⟩ := v
        simp
      | none => simp

theorem scanLinesGo_none :
    ∀ fuel ls, ls.length < fuel →
      scanLinesGo [] none ls = (segmentsOfF fuel ls).flatMap Seg.renderParts := by
  intro fuel
  induction fuel with
  | zero => intro ls h; omega
  | succ fuel ih =>
    intro ls h
    match ls with
    | [] => rfl
    | l :: rest =>
      simp only [segmentsOfF, scanLinesGo]
      by_cases h1 : is_standard_delimiter l
      · rw [if_pos h1, if_pos h1]
        rw [scanLinesGo_std rest [l] (by simp)]
        cases hs : splitUntil is_standard_delimiter rest with
        | some v =>
          obtain ⟨m, d, r⟩ := v
          have hl := splitUntil_length hs
          simp only [List.flatMap_cons, Seg.renderParts]
          rw [ih r (by simp at h; omega)]
          simp
        | none => simp [Seg.renderParts]
      · rw [if_neg h1, if_neg h1]
        by_cases h2 : is_dashed_delimiter l
        · rw [if_pos h2, if_pos h2]
          rw [scanLinesGo_dashed rest []]
          cases hs : splitUntil is_dashed_delimiter rest with
          | some v =>
            obtain ⟨m, d, r⟩ := v
            have hl := splitUntil_length hs
            simp only [List.flatMap_cons, Seg.renderParts]
            rw [ih r (by simp at h; omega)]
            simp
          | none => simp [Seg.renderParts]
        · rw [if_neg h2, if_neg h2]
          simp only [List.flatMap_cons, Seg.renderParts]
          rw [ih rest (by simp at h; omega)]
          rfl

example : subLineCont (("a\\\n\nb").data) = (("a\nb").data) := by decide

example : deconstruct_block (("```cpp  my title \nx=1\n```").data) =
    ((("cpp").data), (("my title\nx=1").data)) := by decide

/-- C1, counterexample.  Scanning a document that ends inside an
unclosed dashed block does not re-emit the dashed delimiter as plain
text: a document consisting of just the delimiter `---` is emitted as
the empty document (the delimiter line is lost), and a document
`---` + newline + `foo` re-emits a forty-dash rule in place of the
three-dash delimiter, so concatenating the produced segments does not
reproduce the original bytes. -/
theorem fence_scanner_unclosed_dashed_cex :
    scan_stage (("---").data) = ([] : Str) ∧
    scan_stage (("---\nfoo").data) = List.replicate 40 '-' ++ ("\nfoo").data ∧
    ¬ (("---").data = ([] : Str)) ∧
    ¬ (List.replicate 40 '-' ++ ("\nfoo").data = ("---\nfoo").data) := by
  refine ⟨by decide, by decide, by decide, by decide⟩

/-- C1, amended.  The Fence Scanner stage of `CodeBlockProcessor.run`
decomposes the input lines into segments without loss or reordering
(flattening the segments' source lines reproduces the split input
exactly), and its output is precisely the rendering of those segments,
in which plain lines and standard-fence spans appear verbatim, closed
dashed spans are converted by `process_dashed_content`, a dangling
standard span is re-emitted verbatim, and a dangling dashed span is
re-emitted as a forty-dash rule plus its buffered lines (or dropped
entirely when no line follows the delimiter). -/
theorem fence_scanner_segment_preservation (text : Str) :
    (segmentsOf (splitLines text)).flatMap Seg.orig = splitLines text ∧
    scan_stage text = joinLines ((segmentsOf (splitLines text)).flatMap Seg.renderParts) := by
  constructor
  · exact segmentsOfF_orig _ _ (Nat.lt_succ_self _)
  · simp only [scan_stage, segmentsOf]
    exact congrArg joinLines (scanLinesGo_none _ _ (Nat.lt_succ_self _))

/-!
Supporting lemmas about `splitLines`, `pyRstrip` and the standard-fence
count, used for the unterminated-block pass.
-/

theorem splitLines_ne_nil : ∀ s : Str, splitLines s ≠ [] := by
  intro s
  match s with
  | [] => simp [splitLines]
  | c :: rest =>
    simp only [splitLines]
    by_cases hc : c = '\n'
    · simp [hc]
    · rw [if_neg hc]
      cases hs : splitLines rest with
      | nil => simp
      | cons l ls => simp

theorem splitLines_append_newline :
    ∀ x y : Str, splitLines (x ++ '\n' :: y) = splitLines x ++ splitLines y := by
  intro x
  induction x with
  | nil => intro y; simp [splitLines]
  | cons c x' ih =>
    intro y
    by_cases hc : c = '\n'
    · subst hc
      show splitLines ('\n' :: (x' ++ '\n' :: y)) = splitLines ('\n' :: x') ++ splitLines y
      simp [splitLines, ih]
    · show splitLines (c :: (x' ++ '\n' :: y)) = splitLines (c :: x') ++ splitLines y
      simp only [splitLines, if_neg hc]
      rw [ih y]
      cases hs : splitLines x' with
      | nil => exact absurd hs (splitLines_ne_nil x')
      | cons l ls => simp

theorem splitLines_snoc_char :
    ∀ (a : Str) (c : Char), ¬ c = '\n' →
      ∃ init last, splitLines a = init ++ [last] ∧
        splitLines (a ++ [c]) = init ++ [last ++ [c]] := by
  intro a
  induction a with
  | nil =>
    intro c hc
    exact ⟨[], [], rfl, by simp [splitLines, hc]⟩
  | cons d a' ih =>
    intro c hc
    obtain ⟨init, last, h1, h2⟩ := ih c hc
    by_cases hd : d = '\n'
    · subst hd
      refine ⟨[] :: init, last, ?_, ?_⟩
      · simp [splitLines, h1]
      · show splitLines ('\n' :: (a' ++ [c])) = ([] :: init) ++ [last ++ [c]]
        simp [splitLines, h2]
    · cases hinit : init with
      | nil =>
        subst hinit
        rw [List.nil_append] at h1 h2
        refine ⟨[], d :: last, ?_, ?_⟩
        · simp only [splitLines, if_neg hd, h1]
          simp
        · show splitLines (d :: (a' ++ [c])) = [] ++ [(d :: last) ++ [c]]
          simp only [splitLines, if_neg hd, h2]
          simp
      | cons i0 irest =>
        subst hinit
        refine ⟨(d :: i0) :: irest, last, ?_, ?_⟩
        · simp only [splitLines, if_neg hd, h1]
          simp
        · show splitLines (d :: (a' ++ [c])) = ((d :: i0) :: irest) ++ [last ++ [c]]
          simp only [splitLines, if_neg hd, h2]
          simp

theorem pyRstrip_snoc_ws (l : Str) (c : Char) (hc : isPyWs c) :
    pyRstrip (l ++ [c]) = pyRstrip l := by
  simp [pyRstrip, List.dropWhile, hc]

theorem is_standard_delimiter_snoc_ws (l : Str) (c : Char) (hc : isPyWs c) :
    is_standard_delimiter (l ++ [c]) = is_standard_delimiter l := by
  simp [is_standard_delimiter, pyStrip, pyRstrip_snoc_ws l c hc]

theorem fence_count_snoc_ws :
    ∀ (a : Str) (c : Char), isPyWs c →
      (splitLines (a ++ [c])).countP is_standard_delimiter =
        (splitLines a).countP is_standard_delimiter := by
  intro a c hc
  by_cases hn : c = '\n'
  · subst hn
    have h := splitLines_append_newline a []
    simp only [h]
    have : splitLines ([] : Str) = [[]] := rfl
    rw [this]
    simp [List.countP_append, is_standard_delimiter, pyStrip, pyLstrip, pyRstrip]
  · obtain ⟨init, last, h1, h2⟩ := splitLines_snoc_char a c hn
    rw [h1, h2]
    simp [List.countP_append, List.countP_cons, is_standard_delimiter_snoc_ws last c hc]

theorem fence_count_append_ws :
    ∀ (w a : Str), (∀ c ∈ w, isPyWs c) →
      (splitLines (a ++ w)).countP is_standard_delimiter =
        (splitLines a).countP is_standard_delimiter := by
  intro w
  induction w with
  | nil => intro a _; simp
  | cons c w' ih =>
    intro a hw
    have : a ++ c :: w' = (a ++ [c]) ++ w' := by simp
    rw [this, ih (a ++ [c]) (fun x hx => hw x (List.mem_cons_of_mem c hx))]
    exact fence_count_snoc_ws a c (hw c (List.mem_cons_self c w'))

theorem pyRstrip_decomposition (s : Str) :
    ∃ w, s = pyRstrip s ++ w ∧ ∀ c ∈ w, isPyWs c := by
  refine ⟨(s.reverse.takeWhile isPyWs).reverse, ?_, ?_⟩
  · have h : s.reverse.takeWhile isPyWs ++ s.reverse.dropWhile isPyWs = s.reverse :=
      List.takeWhile_append_dropWhile isPyWs s.reverse
    have h2 : s = (s.reverse.takeWhile isPyWs ++ s.reverse.dropWhile isPyWs).reverse := by
      rw [h, List.reverse_reverse]
    rw [List.reverse_append] at h2
    exact h2
  · intro c hcm
    rw [List.mem_reverse] at hcm
    exact List.mem_takeWhile_imp hcm

theorem fence_toggle_parity :
    ∀ (ls : List Str) (b : Bool),
      ls.foldl (fun b line => if is_standard_delimiter line then !b else b) b =
        (if ls.countP is_standard_delimiter % 2 = 1 then !b else b) := by
  intro ls
  induction ls with
  | nil => intro b; simp
  | cons l rest ih =>
    intro b
    simp only [List.foldl_cons, List.countP_cons]
    by_cases hl : is_standard_delimiter l
    · rw [if_pos hl, ih (!b)]
      have : rest.countP is_standard_delimiter + 1 = rest.countP is_standard_delimiter + 1 := rfl
      by_cases hp : rest.countP is_standard_delimiter % 2 = 1
      · rw [if_pos hp]
        have : (rest.countP is_standard_delimiter + (if is_standard_delimiter l then 1 else 0)) % 2 = 0 := by
          rw [if_pos hl]; omega
        simp [this]
      · rw [if_neg hp]
        have : (rest.countP is_standard_delimiter + (if is_standard_delimiter l then 1 else 0)) % 2 = 1 := by
          rw [if_pos hl]; omega
        simp [this]
    · rw [if_neg hl, ih b]
      have he : (rest.countP is_standard_delimiter + (if is_standard_delimiter l then 1 else 0)) % 2 =
          rest.countP is_standard_delimiter % 2 := by
        rw [if_neg hl]
        simp
      rw [he]

/-- C4.  For any input whose standard fence-marker line count is odd,
`_fix_unterminated_blocks` returns the right-stripped text with a
closing fence appended (so the appended fence `` ``` `` is the final
line of the document, followed only by the terminating newline), the
returned text has an even fence-marker count, and the warning flag is
set; for an even count the text is returned unchanged with no warning.
The function is total, so the pass cannot raise. -/
theorem fix_unterminated_blocks_spec (text : Str) :
    (Odd ((splitLines text).countP is_standard_delimiter) →
       fix_unterminated_blocks text = (pyRstrip text ++ ("\n```\n").data, true) ∧
       Even ((splitLines (fix_unterminated_blocks text).1).countP is_standard_delimiter) ∧
       ∃ pre, splitLines (fix_unterminated_blocks text).1 = pre ++ [("```").data, ([] : Str)]) ∧
    (¬ Odd ((splitLines text).countP is_standard_delimiter) →
       fix_unterminated_blocks text = (text, false)) := by
  have hb := fence_toggle_parity (splitLines text) false
  constructor
  · intro hodd
    have hmod : (splitLines text).countP is_standard_delimiter % 2 = 1 := Nat.odd_iff.mp hodd
    have hfix : fix_unterminated_blocks text = (pyRstrip text ++ ("\n```\n").data, true) := by
      simp only [fix_unterminated_blocks]
      rw [hb, if_pos hmod]
      simp
    have hsplit : splitLines (pyRstrip text ++ ("\n```\n").data) =
        splitLines (pyRstrip text) ++ [("```").data, ([] : Str)] := by
      have hdec : ("\n```\n").data = '\n' :: ("```\n").data := rfl
      rw [hdec, splitLines_append_newline]
      rfl
    refine ⟨hfix, ?_, ?_⟩
    · rw [hfix]
      obtain ⟨w, hw1, hw2⟩ := pyRstrip_decomposition text
      have hcnt : (splitLines (pyRstrip text)).countP is_standard_delimiter =
          (splitLines text).countP is_standard_delimiter := by
        conv_rhs => rw [hw1]
        exact (fence_count_append_ws w (pyRstrip text) hw2).symm
      simp only [hsplit, List.countP_append, hcnt]
      have hone : ([("```").data, ([] : Str)]).countP is_standard_delimiter = 1 := by decide
      rw [hone]
      exact Odd.add_one hodd
    · rw [hfix]
      exact ⟨splitLines (pyRstrip text), hsplit⟩
  · intro heven
    have hmod : ¬ (splitLines text).countP is_standard_delimiter % 2 = 1 := fun h =>
      heven (Nat.odd_iff.mpr h)
    simp only [fix_unterminated_blocks]
    rw [hb, if_neg hmod]
    simp

/-- Witness for C4 at the one-line document `` ``` ``. -/
theorem fix_unterminated_blocks_spec_witness :
    Odd ((splitLines (("```").data)).countP is_standard_delimiter) ∧
    (fix_unterminated_blocks (("```").data) =
       (pyRstrip (("```").data) ++ ("\n```\n").data, true) ∧
     Even ((splitLines (fix_unterminated_blocks (("```").data)).1).countP is_standard_delimiter) ∧
     ∃ pre, splitLines (fix_unterminated_blocks (("```").data)).1 =
       pre ++ [("```").data, ([] : Str)]) :=
  ⟨by decide, (fix_unterminated_blocks_spec (("```").data)).1 (by decide)⟩

/-!
Lemmas about the pre-fusion repair.
-/

theorem takeWhile_length_drop (p : Char → Bool) :
    ∀ l : Str, l.takeWhile p ++ l.drop (l.takeWhile p).length = l := by
  intro l
  induction l with
  | nil => rfl
  | cons c rest ih =>
    by_cases hp : p c
    · simp only [List.takeWhile_cons, if_pos hp, List.length_cons, List.drop_succ_cons,
        List.cons_append]
      rw [ih]
    · simp [List.takeWhile_cons, hp]

theorem fused_match_decomp {s g1 g2 r : Str} (h : fused_match s = some (g1, g2, r)) :
    s = g1 ++ g2 ++ r ∧ 3 ≤ g1.length ∧ 3 ≤ g2.length ∧
      ("```").data.isPrefixOf g1 := by
  simp only [fused_match] at h
  by_cases h1 : ("```").data.isPrefixOf s
  · rw [if_pos h1] at h
    obtain ⟨t, ht⟩ := List.isPrefixOf_iff_prefix.mp h1
    have hdrop : s.drop 3 = t := by
      rw [← ht]
      exact List.drop_left ("```").data t
    rw [hdrop] at h
    by_cases h2 : ("```").data.isPrefixOf (t.drop (t.takeWhile isPyWs).length)
    · rw [if_pos h2] at h
      obtain ⟨u, hu⟩ := List.isPrefixOf_iff_prefix.mp h2
      rw [← hu] at h
      have hdl : (("```").data ++ u).drop 3 = u := List.drop_left ("```").data u
      rw [hdl] at h
      simp only [Option.some.injEq, Prod.mk.injEq] at h
      obtain ⟨hg1, hg2, hr⟩ := h
      refine ⟨?_, ?_, ?_, ?_⟩
      · rw [← hg1, ← hg2, ← hr, ← ht]
        have ht2 : t = t.takeWhile isPyWs ++ (("```").data ++ u) := by
          conv_lhs => rw [← takeWhile_length_drop isPyWs t]
          rw [hu]
        have hu2 : u = u.takeWhile (fun c => ¬ c = '\n') ++
            u.drop (u.takeWhile (fun c => ¬ c = '\n')).length := by
          conv_lhs => rw [← takeWhile_length_drop (fun c => ¬ c = '\n') u]
        conv_lhs => rw [ht2]
        conv_lhs => rw [hu2]
        simp
      · rw [← hg1]; simp
      · rw [← hg2]; simp
      · rw [← hg1]
        exact List.isPrefixOf_iff_prefix.mpr ⟨_, rfl⟩
    · rw [if_neg h2] at h
      exact absurd h (by simp)
  · rw [if_neg h1] at h
    exact absurd h (by simp)

theorem preFusedF_insert_only :
    ∀ fuel (b : Bool) (s : Str), s.length < fuel →
      s.Sublist (preFusedF fuel b s) ∧
      (preFusedF fuel b s).filter (fun c => ¬ c = '\n') =
        s.filter (fun c => ¬ c = '\n') := by
  intro fuel
  induction fuel with
  | zero => intro b s h; omega
  | succ fuel ih =>
    intro b s h
    match s with
    | [] => simp [preFusedF]
    | c :: rest =>
      simp only [preFusedF]
      have hdefault : (c :: rest).Sublist (c :: preFusedF fuel (c = '\n') rest) ∧
          (c :: preFusedF fuel (c = '\n') rest).filter (fun c => ¬ c = '\n') =
            (c :: rest).filter (fun c => ¬ c = '\n') := by
        obtain ⟨ihs, ihf⟩ := ih (c = '\n') rest (by simp at h; omega)
        constructor
        · exact List.Sublist.cons₂ c ihs
        · simp only [List.filter_cons, ihf]
      by_cases hb : b
      · rw [if_pos hb]
        cases hfm : fused_match (c :: rest) with
        | some v =>
          obtain ⟨g1, g2, r⟩ := v
          obtain ⟨hs, hl1, hl2, _⟩ := fused_match_decomp hfm
          have hlen : rest.length + 1 = g1.length + g2.length + r.length := by
            have hc := congrArg List.length hs
            simpa [Nat.add_assoc] using hc
          have hr : r.length < fuel := by
            have h' : rest.length + 1 < fuel + 1 := by simpa using h
            omega
          obtain ⟨ihs, ihf⟩ := ih false r hr
          constructor
          · rw [hs, List.append_assoc]
            refine List.Sublist.append (List.Sublist.refl g1) ?_
            refine List.Sublist.trans ?_ (List.sublist_cons_self '\n' _)
            exact List.Sublist.append (List.Sublist.refl g2) ihs
          · rw [hs]
            simp [List.filter_append, List.filter_cons]
            simpa using ihf
        | none => exact hdefault
      · rw [if_neg hb]
        exact hdefault

theorem preFusedF_no_backtick :
    ∀ fuel (b : Bool) (s : Str), s.length < fuel → (∀ c ∈ s, ¬ c = backquoteChar) →
      preFusedF fuel b s = s := by
  intro fuel
  induction fuel with
  | zero => intro b s h; omega
  | succ fuel ih =>
    intro b s h hno
    match s with
    | [] => simp [preFusedF]
    | c :: rest =>
      simp only [preFusedF]
      have hdefault : c :: preFusedF fuel (c = '\n') rest = c :: rest := by
        rw [ih (c = '\n') rest (by simp at h; omega)
          (fun x hx => hno x (List.mem_cons_of_mem c hx))]
      by_cases hb : b
      · rw [if_pos hb]
        cases hfm : fused_match (c :: rest) with
        | some v =>
          obtain ⟨g1, g2, r⟩ := v
          obtain ⟨hs, _, _, hpre⟩ := fused_match_decomp hfm
          exfalso
          obtain ⟨t, ht⟩ := List.isPrefixOf_iff_prefix.mp hpre
          have hbq : ("```").data = [backquoteChar, backquoteChar, backquoteChar] := by decide
          rw [hbq] at ht
          rw [← ht] at hs
          simp only [List.cons_append, List.cons.injEq] at hs
          exact hno c (List.mem_cons_self c rest) hs.1
        | none => exact hdefault
      · rw [if_neg hb]
        exact hdefault

/-- C8, counterexample.  The pre-fusion step changes a document whose
lines do not contain two fence markers on one line: the two-line input
`` ``` `` + newline + `` ```cpp `` (one fence marker per line) is
rewritten to three lines with a blank line inserted, because the
whitespace class in the pattern's first group also matches the newline
between the two fence lines. -/
theorem pre_fusion_cex :
    pre_process_fused_blocks (("```\n```cpp").data) = ("```\n\n```cpp").data ∧
    splitLines (("```\n```cpp").data) = [("```").data, ("```cpp").data] ∧
    ¬ (("```\n\n```cpp").data = ("```\n```cpp").data) := by
  refine ⟨by decide, by decide, by decide⟩

/-- C8, amended.  The pre-fusion repair only inserts newline characters
(the original text is a sublist of the output and the outputs agree on
every non-newline character); a line consisting of a fence marker
followed by another fence marker on the same line is split onto two
lines; and any text without a backtick character is left unchanged.
Since the pattern's whitespace group may span a newline, two fence
lines that are already separate may also receive an inserted blank
line. -/
theorem pre_fusion_amended :
    (∀ s : Str, s.Sublist (pre_process_fused_blocks s) ∧
       (pre_process_fused_blocks s).filter (fun c => ¬ c = '\n') =
         s.filter (fun c => ¬ c = '\n')) ∧
    pre_process_fused_blocks (("``` ```cpp").data) = ("``` \n```cpp").data ∧
    (∀ s : Str, (∀ c ∈ s, ¬ c = backquoteChar) → pre_process_fused_blocks s = s) := by
  refine ⟨fun s => preFusedF_insert_only _ true s (Nat.lt_succ_self _), by decide,
    fun s hno => preFusedF_no_backtick _ true s (Nat.lt_succ_self _) hno⟩

/-- Witness for C8 at a backtick-free document. -/
theorem pre_fusion_amended_witness :
    (∀ c ∈ (("abc\ndef").data), ¬ c = backquoteChar) ∧
    pre_process_fused_blocks (("abc\ndef").data) = ("abc\ndef").data :=
  ⟨by decide, pre_fusion_amended.2.2 (("abc\ndef").data) (by decide)⟩

/-!
Algebraic toolkit for `pyStrip` and friends.
-/

theorem dropWhile_head_false {p : Char → Bool} {l t : Str} {c : Char}
    (h : l.dropWhile p = c :: t) : p c = false := by
  have hh := List.head?_dropWhile_not p l
  rw [h] at hh
  simpa using hh

theorem dropWhile_idem (p : Char → Bool) (l : Str) :
    (l.dropWhile p).dropWhile p = l.dropWhile p := by
  cases h : l.dropWhile p with
  | nil => rfl
  | cons c t => simp [List.dropWhile_cons, dropWhile_head_false h]

theorem pyRstrip_idem (s : Str) : pyRstrip (pyRstrip s) = pyRstrip s := by
  simp [pyRstrip, dropWhile_idem]

theorem pyRstrip_eq_nil_iff (s : Str) : pyRstrip s = [] ↔ ∀ c ∈ s, isPyWs c := by
  simp [pyRstrip, List.dropWhile_eq_nil_iff]

theorem pyRstrip_append (a b : Str) :
    pyRstrip (a ++ b) = if pyRstrip b = [] then pyRstrip a else a ++ pyRstrip b := by
  simp only [pyRstrip, List.reverse_append, List.dropWhile_append]
  by_cases h : (b.reverse.dropWhile isPyWs).isEmpty
  · have hnil : b.reverse.dropWhile isPyWs = [] := by simpa [List.isEmpty_iff] using h
    rw [if_pos h, hnil]
    simp
  · have hne : ¬ b.reverse.dropWhile isPyWs = [] := by simpa [List.isEmpty_iff] using h
    rw [if_neg h, if_neg (by simpa using hne)]
    simp

theorem pyRstrip_all_nonws {s : Str} (h : ∀ c ∈ s, ¬ isPyWs c) : pyRstrip s = s := by
  cases hr : s.reverse with
  | nil =>
    have : s = [] := by simpa using congrArg List.reverse hr
    simp [this, pyRstrip]
  | cons c t =>
    have hc : ¬ isPyWs c := by
      refine h c ?_
      rw [← List.mem_reverse, hr]
      exact List.mem_cons_self c t
    simp only [pyRstrip, hr, List.dropWhile_cons]
    rw [if_neg (by simpa using hc)]
    rw [← hr, List.reverse_reverse]

theorem pyLstrip_cons_nonws {c : Char} {t : Str} (h : ¬ isPyWs c) :
    pyLstrip (c :: t) = c :: t := by
  simp only [pyLstrip, List.dropWhile_cons]
  rw [if_neg (by simpa using h)]

theorem pyRstrip_pyStrip (s : Str) : pyRstrip (pyStrip s) = pyStrip s := by
  have hzr : pyRstrip (pyRstrip s) = pyRstrip s := pyRstrip_idem s
  show pyRstrip (pyLstrip (pyRstrip s)) = pyLstrip (pyRstrip s)
  have hdecomp : pyRstrip s =
      (pyRstrip s).takeWhile isPyWs ++ (pyRstrip s).dropWhile isPyWs :=
    (List.takeWhile_append_dropWhile isPyWs (pyRstrip s)).symm
  by_cases hu : (pyRstrip s).dropWhile isPyWs = []
  · have hl : pyLstrip (pyRstrip s) = [] := hu
    rw [hl]
    rfl
  · have h2 := pyRstrip_append ((pyRstrip s).takeWhile isPyWs) ((pyRstrip s).dropWhile isPyWs)
    rw [← hdecomp] at h2
    by_cases h3 : pyRstrip ((pyRstrip s).dropWhile isPyWs) = []
    · rw [if_pos h3] at h2
      have h4 : pyRstrip ((pyRstrip s).takeWhile isPyWs) = [] := by
        rw [pyRstrip_eq_nil_iff]
        intro c hc
        simpa using List.mem_takeWhile_imp hc
      rw [h4, hzr] at h2
      rw [h2] at hu
      simp at hu
    · rw [if_neg h3, hzr] at h2
      have h5 : (pyRstrip s).takeWhile isPyWs ++ pyRstrip ((pyRstrip s).dropWhile isPyWs) =
          (pyRstrip s).takeWhile isPyWs ++ (pyRstrip s).dropWhile isPyWs := by
        rw [← h2, ← hdecomp]
      have h6 := List.append_cancel_left h5
      show pyRstrip ((pyRstrip s).dropWhile isPyWs) = (pyRstrip s).dropWhile isPyWs
      exact h6

theorem pyStrip_idem (s : Str) : pyStrip (pyStrip s) = pyStrip s := by
  show pyLstrip (pyRstrip (pyStrip s)) = pyStrip s
  rw [pyRstrip_pyStrip]
  show pyLstrip (pyLstrip (pyRstrip s)) = pyLstrip (pyRstrip s)
  simp [pyLstrip, dropWhile_idem]

theorem pyStrip_eq_nil_iff (s : Str) : pyStrip s = [] ↔ ∀ c ∈ s, isPyWs c := by
  constructor
  · intro h
    have h1 : ∀ c ∈ pyRstrip s, isPyWs c := by
      have : pyLstrip (pyRstrip s) = [] := h
      simpa [pyLstrip, List.dropWhile_eq_nil_iff] using this
    have h2 : pyRstrip (pyRstrip s) = [] := (pyRstrip_eq_nil_iff _).mpr h1
    rw [pyRstrip_idem] at h2
    exact (pyRstrip_eq_nil_iff _).mp h2
  · intro h
    have h2 : pyRstrip s = [] := (pyRstrip_eq_nil_iff _).mpr h
    show pyLstrip (pyRstrip s) = []
    rw [h2]
    rfl

/-!
Lemmas and claim theorems about `_deconstruct_block`.
-/

theorem deconstruct_lines_reduce (firstL lastL : Str) (mid : List Str)
    (hF : ¬ pyStrip firstL = []) (hL : ¬ pyStrip lastL = []) :
    deconstruct_lines (firstL :: (mid ++ [lastL])) = deconstruct_core firstL mid := by
  simp only [deconstruct_lines]
  simp only [if_neg hF]
  rw [dif_pos (by simp : firstL :: (mid ++ [lastL]) ≠ [])]
  have hgl : (firstL :: (mid ++ [lastL])).getLast (by simp) = lastL := by
    rw [List.getLast_cons (by simp : mid ++ [lastL] ≠ [])]
    exact List.getLast_append _
  rw [hgl, if_neg hL]
  show deconstruct_core firstL (mid ++ [lastL]).dropLast = deconstruct_core firstL mid
  rw [List.dropLast_concat]

theorem promote_body_language_tagged {lang : Str} (h : ¬ lang = []) (content : List Str) :
    promote_body_language lang content = (lang, content) := by
  cases content with
  | nil => rfl
  | cons a b => simp [promote_body_language, h]

theorem promote_body_title_invalid (content : List Str) :
    promote_body_title (("__INVALID__").data) content = (("__INVALID__").data, content) := by
  cases content with
  | nil => rfl
  | cons a b =>
    simp only [promote_body_title]
    rw [if_neg (fun hc => hc.2.2.1 rfl)]

theorem fence_header_match_inv {l fp sp : Str} (h : fence_header_match l = some (fp, sp)) :
    ("```").data.isPrefixOf l ∧ ∀ c ∈ fp, ¬ isPyWs c := by
  simp only [fence_header_match] at h
  by_cases hp : ("```").data.isPrefixOf l
  · rw [if_pos hp] at h
    simp only [Option.some.injEq, Prod.mk.injEq] at h
    obtain ⟨h1, _⟩ := h
    refine ⟨hp, ?_⟩
    intro c hc
    rw [← h1] at hc
    have hm := List.mem_takeWhile_imp hc
    simpa using hm
  · rw [if_neg hp] at h
    exact absurd h (by simp)

theorem pyStrip_token_space (fp b : Str) (hne : fp ≠ [])
    (hnw : ∀ c ∈ fp, ¬ isPyWs c) (hb : pyRstrip b = b) :
    pyStrip (fp ++ ' ' :: b) = if b = [] then fp else fp ++ ' ' :: b := by
  have hfphead : ∃ c t, fp = c :: t ∧ ¬ isPyWs c := by
    cases fp with
    | nil => exact absurd rfl hne
    | cons c t => exact ⟨c, t, rfl, hnw c (List.mem_cons_self c t)⟩
  obtain ⟨c0, t0, hfp0, hc0⟩ := hfphead
  by_cases hbe : b = []
  · subst hbe
    rw [if_pos rfl]
    show pyLstrip (pyRstrip (fp ++ [' '])) = fp
    rw [pyRstrip_append fp [' ']]
    rw [if_pos (by decide)]
    rw [pyRstrip_all_nonws hnw]
    rw [hfp0]
    exact pyLstrip_cons_nonws hc0
  · rw [if_neg hbe]
    have hsb : pyRstrip (' ' :: b) = ' ' :: b := by
      have h1 := pyRstrip_append [' '] b
      rw [hb, if_neg hbe] at h1
      simpa using h1
    show pyLstrip (pyRstrip (fp ++ ' ' :: b)) = fp ++ ' ' :: b
    rw [pyRstrip_append fp (' ' :: b), hsb]
    rw [if_neg (by simp)]
    rw [hfp0]
    exact pyLstrip_cons_nonws hc0

theorem deconstruct_core_untagged (bodyFirst : Str) (restLines : List Str)
    (hval : validate_identifier (pyStrip bodyFirst) (("first_part").data) = true)
    (hsp : (pyStrip bodyFirst).contains ' ' = false) :
    (deconstruct_core (("```").data) (bodyFirst :: restLines)).1 = pyStrip bodyFirst ∨
      ∃ t, (deconstruct_core (("```").data) (bodyFirst :: restLines)).1 =
        pyStrip bodyFirst ++ ' ' :: t := by
  have hh : deconstruct_header (("```").data) = ([], []) := by decide
  have hprom : promote_body_language [] (bodyFirst :: restLines) =
      (pyStrip bodyFirst, restLines) := by
    simp only [promote_body_language, if_true]
    rw [if_pos ⟨hval, by simpa using hsp⟩]
  simp only [deconstruct_core, hh, hprom]
  cases restLines with
  | nil => left; rfl
  | cons cl0 clrest =>
    simp only [promote_body_title]
    by_cases hc : pyStrip bodyFirst ≠ [] ∧ ¬ (pyStrip bodyFirst).contains ' ' ∧
        pyStrip bodyFirst ≠ ("__INVALID__").data ∧ pyStrip bodyFirst ≠ ("__DEMO__").data
    · rw [if_pos hc]
      by_cases ht : pyStrip cl0 ≠ [] ∧
          validate_identifier (pyStrip cl0) (("title_line").data) = true
      · rw [if_pos ht]
        right
        exact ⟨pyStrip cl0, rfl⟩
      · rw [if_neg ht]
        left; rfl
    · rw [if_neg hc]
      left; rfl

/-- C9.  `_validate_identifier` accepts the empty identifier in every
context; consequently a fence line with no trailing text receives the
empty language tag rather than `__INVALID__`, which enables the
promotion of a first body line that strips to a known-language token
(without an embedded space) to the block's language tag - possibly
further extended by a promoted title. -/
theorem validate_empty_enables_promotion (ctx bodyFirst : Str) (restLines : List Str)
    (hval : validate_identifier (pyStrip bodyFirst) (("first_part").data) = true)
    (hsp : (pyStrip bodyFirst).contains ' ' = false) :
    validate_identifier [] ctx = true ∧
    (deconstruct_lines
        (("```").data :: ((bodyFirst :: restLines) ++ [("```").data]))).1 ≠
      ("__INVALID__").data ∧
    ((deconstruct_lines
        (("```").data :: ((bodyFirst :: restLines) ++ [("```").data]))).1 =
          pyStrip bodyFirst ∨
      ∃ t, (deconstruct_lines
        (("```").data :: ((bodyFirst :: restLines) ++ [("```").data]))).1 =
          pyStrip bodyFirst ++ ' ' :: t) := by
  have hred := deconstruct_lines_reduce (("```").data) (("```").data)
    (bodyFirst :: restLines) (by decide) (by decide)
  have hcore := deconstruct_core_untagged bodyFirst restLines hval hsp
  refine ⟨by simp [validate_identifier], ?_, ?_⟩
  · rw [hred]
    cases hcore with
    | inl h =>
      rw [h]
      intro heq
      rw [heq] at hval
      exact absurd hval (by decide)
    | inr h =>
      obtain ⟨t, ht⟩ := h
      rw [ht]
      intro heq
      have hmem : ' ' ∈ ("__INVALID__").data := by
        rw [← heq]
        exact List.mem_append_right _ (List.mem_cons_self _ _)
      exact absurd hmem (by decide)
  · rw [hred]
    exact hcore

/-- Witness for C9: an untagged fence whose first body line is
`python`. -/
theorem validate_empty_enables_promotion_witness :
    validate_identifier (pyStrip (("python").data)) (("first_part").data) = true ∧
    (validate_identifier [] (("title_line").data) = true ∧
     (deconstruct_lines
        (("```").data :: (((("python").data) :: [("x=1").data]) ++ [("```").data]))).1 ≠
       ("__INVALID__").data ∧
     ((deconstruct_lines
        (("```").data :: (((("python").data) :: [("x=1").data]) ++ [("```").data]))).1 =
          pyStrip (("python").data) ∨
      ∃ t, (deconstruct_lines
        (("```").data :: (((("python").data) :: [("x=1").data]) ++ [("```").data]))).1 =
          pyStrip (("python").data) ++ ' ' :: t)) :=
  ⟨by decide, validate_empty_enables_promotion (("title_line").data) (("python").data)
    [("x=1").data] (by decide) (by decide)⟩

/-- C7.  A fenced block whose opening-fence trailing text starts with a
non-empty first token that is neither a known language (case
insensitively) nor the demo placeholder is deconstructed with language
tag `__INVALID__`, and the whole trailing text of the fence line (the
first token, joined by a single space with the stripped remainder when
the latter is non-empty) becomes the first line of the returned code
body, followed by all the original content lines - no content from the
malformed header is discarded. -/
theorem deconstruct_invalid_header_keeps_content (fl lastL : Str) (mid : List Str)
    (fp sp : Str)
    (hm : fence_header_match fl = some (fp, sp))
    (hne : fp ≠ [])
    (hk : ¬ KNOWN_LANGUAGES.contains (pyLower fp) = true)
    (hd : ¬ pyLower fp = ("演示").data)
    (hL : ¬ pyStrip lastL = []) :
    deconstruct_lines (fl :: (mid ++ [lastL])) =
      (("__INVALID__").data,
        joinLines ((if pyStrip sp = [] then fp else fp ++ ' ' :: pyStrip sp) :: mid)) := by
  obtain ⟨hpre, hnw⟩ := fence_header_match_inv hm
  have hF : ¬ pyStrip fl = [] := by
    intro h0
    obtain ⟨t, ht⟩ := List.isPrefixOf_iff_prefix.mp hpre
    rw [← ht, pyStrip_eq_nil_iff] at h0
    have hbq : backquoteChar ∈ ("```").data := by decide
    have hw := h0 backquoteChar (List.mem_append_left t hbq)
    exact absurd hw (by decide)
  rw [deconstruct_lines_reduce fl lastL mid hF hL]
  have hv : validate_identifier fp (("first_part").data) = false := by
    simp only [validate_identifier]
    rw [if_neg hne]
    by_cases ha : ¬ fp.all isIdentChar = true
    · rw [if_pos ha]
    · rw [if_neg ha, if_neg hd]
      simpa using hk
  have hfull := pyStrip_token_space fp (pyStrip sp) hne hnw (pyRstrip_pyStrip sp)
  have hfne : ¬ (if pyStrip sp = [] then fp else fp ++ ' ' :: pyStrip sp) = [] := by
    by_cases hb : pyStrip sp = []
    · rw [if_pos hb]; exact hne
    · rw [if_neg hb]; simp
  have hh : deconstruct_header fl = (("__INVALID__").data,
      [if pyStrip sp = [] then fp else fp ++ ' ' :: pyStrip sp]) := by
    simp only [deconstruct_header, hm, hv, Bool.false_eq_true, if_false, if_neg hd, hfull]
    rw [if_pos hfne]
  simp only [deconstruct_core, hh]
  rw [promote_body_language_tagged (by decide) mid]
  rw [promote_body_title_invalid mid]
  simp

/-- Witness for C7 at the fence header `` ```foo bar ``. -/
theorem deconstruct_invalid_header_keeps_content_witness :
    fence_header_match (("```foo bar").data) = some ((("foo").data), (("bar").data)) ∧
    deconstruct_lines ((("```foo bar").data) :: ([("x + y").data] ++ [("```").data])) =
      (("__INVALID__").data,
        joinLines ((if pyStrip (("bar").data) = [] then ("foo").data
          else ("foo").data ++ ' ' :: pyStrip (("bar").data)) :: [("x + y").data])) :=
  ⟨by decide, deconstruct_invalid_header_keeps_content (("```foo bar").data) (("```").data)
    [("x + y").data] (("foo").data) (("bar").data) (by decide) (by decide) (by decide)
    (by decide) (by decide)⟩

/-!
Claim theorems about the placeholder-marker step, the formatting gate,
string-literal protection, comment protection, and uniform-mode
determinism.
-/

theorem default_final_code_starts_marker (c : Str) :
    ("演示").data.isPrefixOf (pyStrip (default_final_code c)) = true := by
  simp only [default_final_code]
  by_cases hp : ("演示").data.isPrefixOf (pyStrip c) = true
  · rw [if_neg (by simpa using hp)]
    exact hp
  · rw [if_pos (by simpa using hp)]
    by_cases hc : c = []
    · rw [if_neg (fun h => h hc)]
      decide
    · rw [if_pos hc]
      show ("演示").data.isPrefixOf (pyLstrip (pyRstrip (("演示\n").data ++ c))) = true
      rw [pyRstrip_append]
      by_cases hrc : pyRstrip c = []
      · rw [if_pos hrc]
        decide
      · rw [if_neg hrc]
        have hsplit : ("演示\n").data = '演' :: '示' :: '\n' :: [] := by decide
        rw [hsplit]
        show ("演示").data.isPrefixOf (pyLstrip ('演' :: ('示' :: '\n' :: pyRstrip c))) = true
        rw [pyLstrip_cons_nonws (by decide)]
        refine List.isPrefixOf_iff_prefix.mpr ⟨'\n' :: pyRstrip c, ?_⟩
        have hmk : ("演示").data = ['演', '示'] := by decide
        rw [hmk]
        rfl

theorem default_final_code_of_marked {u : Str}
    (h : ("演示").data.isPrefixOf (pyStrip u) = true) : default_final_code u = u := by
  simp only [default_final_code]
  rw [if_neg (by simpa using h)]

/-- C5, amended.  The finalized body of the defaulting branch always
begins with the placeholder marker; the marker is prepended only when
the (stripped) body does not already begin with it, a body already
starting with the marker passing through with only stripping; and the
marker step followed by the final strip is idempotent, so a repeated
run never duplicates the marker.  (A body that already begins with two
marker lines keeps both - see the counterexample.) -/
theorem default_marker_no_duplication (c : Str) :
    ("演示").data.isPrefixOf (pyStrip (default_final_code c)) = true ∧
    (("演示").data.isPrefixOf (pyStrip c) = true →
      pyStrip (default_final_code c) = pyStrip c) ∧
    pyStrip (default_final_code (pyStrip (default_final_code c))) =
      pyStrip (default_final_code c) := by
  refine ⟨default_final_code_starts_marker c, ?_, ?_⟩
  · intro hp
    rw [default_final_code_of_marked hp]
  · have hpre : ("演示").data.isPrefixOf (pyStrip (pyStrip (default_final_code c))) = true := by
      rw [pyStrip_idem]
      exact default_final_code_starts_marker c
    rw [default_final_code_of_marked hpre, pyStrip_idem]

/-- Witness for C5 at a body already starting with the marker. -/
theorem default_marker_no_duplication_witness :
    ("演示").data.isPrefixOf (pyStrip (("演示\nx").data)) = true ∧
    ("演示").data.isPrefixOf (pyStrip (default_final_code (("演示\nx").data))) = true ∧
    pyStrip (default_final_code (("演示\nx").data)) = pyStrip (("演示\nx").data) ∧
    pyStrip (default_final_code (pyStrip (default_final_code (("演示\nx").data)))) =
      pyStrip (default_final_code (("演示\nx").data)) :=
  ⟨by decide, (default_marker_no_duplication (("演示\nx").data)).1,
   (default_marker_no_duplication (("演示\nx").data)).2.1 (by decide),
   (default_marker_no_duplication (("演示\nx").data)).2.2⟩

/-- C5, counterexample.  An untagged block whose cleaned body already
begins with two marker lines is finalized unchanged, so the finalized
body begins with the placeholder marker twice, not exactly once: the
first three lines of the callback's output are the fence, the marker,
and the marker again. -/
theorem default_marker_duplicate_cex :
    replacement_callback ⟨true, ("c").data, ("c").data, true⟩ (fun _ => []) 1
        (("```\n演示\n演示\n```").data) = ("```c\n演示\n演示\n```").data ∧
    (splitLines (replacement_callback ⟨true, ("c").data, ("c").data, true⟩ (fun _ => []) 1
        (("```\n演示\n演示\n```").data))).take 3 =
      [("```c").data, ("演示").data, ("演示").data] := by
  refine ⟨by decide, by decide⟩

/-- C3, amended.  In the cleaner's code-block callback, the formatting
stage (`_format_code_indentation`) is applied exactly when the lowered
language tag is in the brace-family list: any other tag re-emits the
merely-normalized body unformatted.  (The repair module, by contrast,
formats every block whenever its formatting switch is on, regardless of
language - see the counterexample.) -/
theorem cleaner_formats_only_c_family (langRaw content : Str) :
    (¬ c_family_langs.contains (pyLower langRaw) = true →
      clean_code_block_content langRaw content =
        mkFencedBlock (pyLower langRaw) (pyStrip (normalize_code_body content))) ∧
    (c_family_langs.contains (pyLower langRaw) = true →
      clean_code_block_content langRaw content =
        mkFencedBlock (pyLower langRaw)
          (pyStrip (format_code_indentation (normalize_code_body content)))) := by
  constructor
  · intro h
    simp only [clean_code_block_content]
    rw [if_neg (by simpa using h)]
  · intro h
    simp only [clean_code_block_content]
    rw [if_pos (by simpa using h)]

/-- Witness for C3 at a python-tagged block. -/
theorem cleaner_formats_only_c_family_witness :
    ¬ c_family_langs.contains (pyLower (("python").data)) = true ∧
    clean_code_block_content (("python").data) (("x=1").data) =
      mkFencedBlock (pyLower (("python").data))
        (pyStrip (normalize_code_body (("x=1").data))) :=
  ⟨by decide, (cleaner_formats_only_c_family (("python").data) (("x=1").data)).1 (by decide)⟩

/-- C3, counterexample.  The repair module's replacement callback
formats the body of a `python`-tagged block (inserting operator
spacing) although `python` is not in the brace-family subset, because
`_format_code_content` is applied unconditionally whenever
`format_code` is enabled. -/
theorem repair_formats_python_cex :
    replacement_callback ⟨true, ("python").data, ("c").data, true⟩ (fun _ => []) 1
        (("```python\nx=1\n```").data) = ("```python\nx = 1\n```").data ∧
    ¬ c_family_langs.contains (pyLower (("python").data)) = true := by
  refine ⟨by decide, by decide⟩

/-- C6, counterexample.  A double-quoted literal containing a run of
two spaces is altered by `_format_line_spacing`: the final collapse of
multi-whitespace runs applies inside the literal, so the literal's
contents do not appear unchanged in the output. -/
theorem format_line_literal_collapsed_cex :
    format_line_spacing (("x = \"a  b\"").data) = ("x = \"a b\"").data ∧
    ¬ format_line_spacing (("x = \"a  b\"").data) = ("x = \"a  b\"").data := by
  refine ⟨by decide, by decide⟩

/-- C2, counterexample.  A block comment containing an internal double
asterisk is not preserved byte-for-byte by the cleaning callback: the
bold-markup removal runs before the comment placeholders are installed,
so the comment text is mangled although the input is a code-block body
containing a block comment with internal asterisks. -/
theorem comment_protection_cex :
    clean_code_block_content [] (("/** a ** b */").data) = ("```\n/ a  b */\n```").data ∧
    ¬ clean_code_block_content [] (("/** a ** b */").data) =
        ("```\n/** a ** b */\n```").data := by
  refine ⟨by decide, by decide⟩

/-- C10.  In uniform (`'all'`) mode the repair pipeline is
deterministic: with the same configuration, two runs over the same
input text return identical output whatever the interactive oracle
answers, because `_get_target_language` returns the configured uniform
tag without consulting the prompt. -/
theorem run_all_mode_deterministic (cfg : RepairConfig) (o1 o2 : Nat → Str) (text : Str)
    (h : cfg.mode_all = true) :
    run_repair cfg o1 text = run_repair cfg o2 text := by
  have hcb : replacement_callback cfg o1 = replacement_callback cfg o2 := by
    funext n b
    simp only [replacement_callback, get_target_language, h, if_true]
  simp only [run_repair, block_finder_sub, hcb]

/-- Witness for C10 with two oracles that answer differently. -/
theorem run_all_mode_deterministic_witness :
    (RepairConfig.mk true (("java").data) (("c").data) true).mode_all = true ∧
    run_repair (RepairConfig.mk true (("java").data) (("c").data) true)
        (fun _ => ("x").data) (("```python\na\n```").data) =
      run_repair (RepairConfig.mk true (("java").data) (("c").data) true)
        (fun _ => ("none").data) (("```python\na\n```").data) :=
  ⟨rfl, run_all_mode_deterministic (RepairConfig.mk true (("java").data) (("c").data) true)
    (fun _ => ("x").data) (fun _ => ("none").data) (("```python\na\n```").data) rfl⟩

/-!
General literal-span protection in the cleaner's line formatter, and
general comment protection in the cleaning callback.
-/

theorem takeWhile_no_quote (pre rest : Str) (hp : ∀ c ∈ pre, ¬ c = '"') :
    (pre ++ '"' :: rest).takeWhile (fun c => ¬ c = '"') = pre := by
  induction pre with
  | nil => simp [List.takeWhile_cons]
  | cons c pr ih =>
    have hc : ¬ c = '"' := hp c (List.mem_cons_self c pr)
    simp only [List.cons_append, List.takeWhile_cons]
    rw [if_pos (by simpa using hc)]
    rw [ih (fun x hx => hp x (List.mem_cons_of_mem c hx))]

theorem findQuotePair_split (pre inner post : Str)
    (hp : ∀ c ∈ pre, ¬ c = '"') (hi : ∀ c ∈ inner, ¬ c = '"') :
    findQuotePair (pre ++ '"' :: (inner ++ '"' :: post)) =
      some (pre, '"' :: (inner ++ ['"']), post) := by
  simp only [findQuotePair]
  rw [takeWhile_no_quote pre (inner ++ '"' :: post) hp]
  have hd1 : List.drop pre.length (pre ++ '"' :: (inner ++ '"' :: post)) =
      '"' :: (inner ++ '"' :: post) := List.drop_left pre ('"' :: (inner ++ '"' :: post))
  rw [hd1]
  have htw := takeWhile_no_quote inner post hi
  have hd2 : List.drop inner.length (inner ++ '"' :: post) = '"' :: post :=
    List.drop_left inner ('"' :: post)
  simp only [htw, hd2]

theorem findQuotePair_decomp {s pre lit rest : Str}
    (h : findQuotePair s = some (pre, lit, rest)) :
    s = pre ++ lit ++ rest ∧ 2 ≤ lit.length := by
  simp only [findQuotePair] at h
  split at h
  next q1 r1 hd =>
    split at h
    next q2 r2 hd2 =>
      simp only [Option.some.injEq, Prod.mk.injEq] at h
      obtain ⟨h1, h2, h3⟩ := h
      constructor
      · rw [← h1, ← h2, ← h3]
        have hs : s = s.takeWhile (fun c => decide (¬ c = '"')) ++ (q1 :: r1) := by
          conv_lhs => rw [← takeWhile_length_drop (fun c => decide (¬ c = '"')) s]
          rw [hd]
        have hr : r1 = r1.takeWhile (fun c => decide (¬ c = '"')) ++ (q2 :: r2) := by
          conv_lhs => rw [← takeWhile_length_drop (fun c => decide (¬ c = '"')) r1]
          rw [hd2]
        rw [hr] at hs
        conv_lhs => rw [hs]
        simp
      · rw [← h2]
        simp
    next _ => exact absurd h (by simp)
  next _ => exact absurd h (by simp)

theorem splitLitsF_fuel :
    ∀ f1 f2 s, s.length < f1 → s.length < f2 → splitLitsF f1 s = splitLitsF f2 s := by
  intro f1
  induction f1 with
  | zero => intro f2 s h1 h2; omega
  | succ f1 ih =>
    intro f2 s h1 h2
    match f2 with
    | 0 => omega
    | f2 + 1 =>
      cases hq : findQuotePair s with
      | none => simp only [splitLitsF, hq]
      | some v =>
        obtain ⟨pre, lit, rest⟩ := v
        obtain ⟨hs, hl⟩ := findQuotePair_decomp hq
        have hlen : rest.length + 2 ≤ s.length := by
          rw [hs]
          simp only [List.length_append]
          omega
        simp only [splitLitsF, hq]
        rw [ih f2 rest (by omega) (by omega)]

/-- C6, amended.  In the cleaner's `_format_line_spacing` the
operator-spacing phase is applied only to the non-literal spans: for any
line split as pre + literal + post (no quote inside pre or the literal
body), the text reaching the final whitespace-collapse pass is the
formatted pre, the literal span verbatim, and the processed remainder -
so operator insertion never touches literal contents, and only the
final collapse-and-strip (which runs over the whole line) and the
repair module's formatter (which does not split on literals at all) can
alter a literal.  Concretely, the equals sign inside the literal of
`x="a=b"` is not spaced while the one outside is, and the repair
formatter spaces both. -/
theorem format_line_literal_protection_amended (pre inner post : Str)
    (hp : ∀ c ∈ pre, ¬ c = '"') (hi : ∀ c ∈ inner, ¬ c = '"') :
    (let joined := format_nonliteral_part pre ++ ('"' :: (inner ++ ['"'])) ++
        format_parts false (splitLitsF (post.length + 1) post)
     format_line_spacing (pre ++ '"' :: (inner ++ '"' :: post)) =
       pyStrip (collapseWsF (joined.length + 1) joined)) ∧
    format_line_spacing (("x=\"a=b\"").data) = ("x = \"a=b\"").data ∧
    format_code_content (("s=\"a=b\"").data) = ("s = \"a = b\"").data := by
  refine ⟨?_, by decide, by decide⟩
  show format_line_spacing (pre ++ '"' :: (inner ++ '"' :: post)) = _
  have hsplit : splitLitsF ((pre ++ '"' :: (inner ++ '"' :: post)).length + 1)
      (pre ++ '"' :: (inner ++ '"' :: post)) =
      pre :: ('"' :: (inner ++ ['"'])) :: splitLitsF (post.length + 1) post := by
    have hlen : post.length < (pre ++ '"' :: (inner ++ '"' :: post)).length := by
      simp
      omega
    have hfuel : splitLitsF (post.length + 1) post =
        splitLitsF ((pre ++ '"' :: (inner ++ '"' :: post)).length) post :=
      splitLitsF_fuel (post.length + 1) ((pre ++ '"' :: (inner ++ '"' :: post)).length)
        post (Nat.lt_succ_self _) hlen
    rw [hfuel]
    simp only [splitLitsF, findQuotePair_split pre inner post hp hi]
  simp only [format_line_spacing, hsplit, format_parts, Bool.not_false, Bool.not_true]
  simp [List.append_assoc]

/-- Witness for C6: the general literal-protection statement applied at
pre = "x=", literal body "a=b", empty remainder. -/
theorem format_line_literal_protection_amended_witness :
    (∀ c ∈ (("x=").data), ¬ c = '"') ∧ (∀ c ∈ (("a=b").data), ¬ c = '"') ∧
    ((let joined := format_nonliteral_part (("x=").data) ++
        ('"' :: ((("a=b").data) ++ ['"'])) ++
        format_parts false (splitLitsF ((List.length ([] : Str)) + 1) ([] : Str))
      format_line_spacing ((("x=").data) ++ '"' :: ((("a=b").data) ++ '"' :: ([] : Str))) =
        pyStrip (collapseWsF (joined.length + 1) joined)) ∧
      format_line_spacing (("x=\"a=b\"").data) = ("x = \"a=b\"").data ∧
      format_code_content (("s=\"a=b\"").data) = ("s = \"a = b\"").data) :=
  ⟨by decide, by decide,
    format_line_literal_protection_amended (("x=").data) (("a=b").data) []
      (by decide) (by decide)⟩

/-!
General comment-protection infrastructure for the cleaning callback: the
normalization pipeline is the identity on a whole-body block comment
whose interior triggers none of the earlier rewriting passes.
-/

theorem subLineContF_no_backslash :
    ∀ fuel s, s.length < fuel → (∀ c ∈ s, ¬ c = '\\') → subLineContF fuel s = s := by
  intro fuel
  induction fuel with
  | zero => intro s h _; omega
  | succ f ih =>
    intro s hlen hb
    cases s with
    | nil => rfl
    | cons c rest =>
      have hc : ¬ c = '\\' := hb c (List.mem_cons_self c rest)
      simp only [subLineContF]
      rw [if_neg hc,
        ih rest (by simp only [List.length_cons] at hlen; omega)
          (fun x hx => hb x (List.mem_cons_of_mem c hx))]

theorem malformedCommentSubF_inactive :
    ∀ fuel s, s.length < fuel → (∀ c ∈ s, ¬ c = '\n') →
      malformedCommentSubF fuel false s = s := by
  intro fuel
  induction fuel with
  | zero => intro s h _; omega
  | succ f ih =>
    intro s hlen hnl
    cases s with
    | nil => rfl
    | cons c rest =>
      have hc : ¬ c = '\n' := hnl c (List.mem_cons_self c rest)
      have e : malformedCommentSubF (f + 1) false (c :: rest) =
          c :: malformedCommentSubF f (decide (c = '\n')) rest := rfl
      rw [e, decide_eq_false hc,
        ih rest (by simp only [List.length_cons] at hlen; omega)
          (fun x hx => hnl x (List.mem_cons_of_mem c hx))]

theorem singleLineCommentSubF_inactive :
    ∀ fuel s, s.length < fuel → (∀ c ∈ s, ¬ c = '\n') →
      singleLineCommentSubF fuel false s = s := by
  intro fuel
  induction fuel with
  | zero => intro s h _; omega
  | succ f ih =>
    intro s hlen hnl
    cases s with
    | nil => rfl
    | cons c rest =>
      have hc : ¬ c = '\n' := hnl c (List.mem_cons_self c rest)
      have e : singleLineCommentSubF (f + 1) false (c :: rest) =
          c :: singleLineCommentSubF f (decide (c = '\n')) rest := rfl
      rw [e, decide_eq_false hc,
        ih rest (by simp only [List.length_cons] at hlen; omega)
          (fun x hx => hnl x (List.mem_cons_of_mem c hx))]

theorem malformed_match_at_slash (tail : Str) :
    malformed_match_at ('/' :: tail) = none := rfl

theorem slc_match_at_slash (tail : Str) : slc_match_at ('/' :: tail) = none := rfl

theorem malformedCommentSubF_slash (tail : Str) (h : ∀ c ∈ tail, ¬ c = '\n') :
    malformedCommentSubF (('/' :: tail).length + 1) true ('/' :: tail) = '/' :: tail := by
  have e : malformedCommentSubF (('/' :: tail).length + 1) true ('/' :: tail) =
      '/' :: malformedCommentSubF (('/' :: tail).length) false tail := rfl
  rw [e, malformedCommentSubF_inactive (('/' :: tail).length) tail
    (by simp only [List.length_cons]; omega) h]

theorem singleLineCommentSubF_slash (tail : Str) (h : ∀ c ∈ tail, ¬ c = '\n') :
    singleLineCommentSubF (('/' :: tail).length + 1) true ('/' :: tail) = '/' :: tail := by
  have e : singleLineCommentSubF (('/' :: tail).length + 1) true ('/' :: tail) =
      '/' :: singleLineCommentSubF (('/' :: tail).length) false tail := rfl
  rw [e, singleLineCommentSubF_inactive (('/' :: tail).length) tail
    (by simp only [List.length_cons]; omega) h]

theorem listReplace_head_notin :
    ∀ fuel (p0 : Char) (pr rep s : Str), s.length < fuel → (∀ c ∈ s, ¬ c = p0) →
      listReplaceF (p0 :: pr) rep fuel s = s := by
  intro fuel
  induction fuel with
  | zero => intro _ _ _ s h _; omega
  | succ f ih =>
    intro p0 pr rep s hlen hmem
    cases s with
    | nil => rfl
    | cons c rest =>
      have hcond : ¬ ((p0 :: pr) ≠ [] ∧ (p0 :: pr).isPrefixOf (c :: rest) = true) := by
        rintro ⟨_, hpre⟩
        obtain ⟨t, ht⟩ := List.isPrefixOf_iff_prefix.mp hpre
        rw [List.cons_append] at ht
        injection ht with h1 h2
        exact hmem c (List.mem_cons_self c rest) h1.symm
      simp only [listReplaceF]
      rw [if_neg hcond,
        ih p0 pr rep rest (by simp only [List.length_cons] at hlen; omega)
          (fun x hx => hmem x (List.mem_cons_of_mem c hx))]

theorem listReplace_self (pat rep : Str) (h : pat ≠ []) :
    listReplace pat rep pat = rep := by
  cases pat with
  | nil => exact absurd rfl h
  | cons p pr =>
    simp only [listReplace, listReplaceF]
    rw [if_pos ⟨h, List.isPrefixOf_iff_prefix.mpr (List.prefix_refl _)⟩]
    rw [List.drop_length]
    simp [listReplaceF]

theorem findDoubleStar_cons_none {c : Char} {rest : Str}
    (h : findDoubleStar (c :: rest) = none) :
    ¬ (c = '*' ∧ rest.take 1 = ['*']) ∧ findDoubleStar rest = none := by
  by_cases hc : c = '*' ∧ rest.take 1 = ['*']
  · rw [show findDoubleStar (c :: rest) = some ([], rest.drop 1) from by
      simp only [findDoubleStar]; rw [if_pos hc]] at h
    exact absurd h (by simp)
  · refine ⟨hc, ?_⟩
    simp only [findDoubleStar] at h
    rw [if_neg hc] at h
    split at h
    next pr heq => exact absurd h (by simp)
    next heq => exact heq

theorem boldPairSubF_no_pair :
    ∀ fuel s, s.length < fuel → findDoubleStar s = none → boldPairSubF fuel s = s := by
  intro fuel
  induction fuel with
  | zero => intro s h _; omega
  | succ f ih =>
    intro s hlen h
    cases s with
    | nil => rfl
    | cons c rest =>
      obtain ⟨hc, hrest⟩ := findDoubleStar_cons_none h
      simp only [boldPairSubF]
      rw [if_neg hc,
        ih rest (by simp only [List.length_cons] at hlen; omega) hrest]

theorem boldPairSubF_step_copy (fuel : Nat) (c : Char) (rest : Str)
    (hc : ¬ (c = '*' ∧ rest.take 1 = ['*'])) :
    boldPairSubF (fuel + 1) (c :: rest) = c :: boldPairSubF fuel rest := by
  simp only [boldPairSubF]
  rw [if_neg hc]

theorem boldPairSubF_step_pair_none (fuel : Nat) (rest : Str)
    (h : findDoubleStar (rest.drop 1) = none) (hr : rest.take 1 = ['*']) :
    boldPairSubF (fuel + 1) ('*' :: rest) = '*' :: boldPairSubF fuel rest := by
  simp only [boldPairSubF]
  rw [if_pos ⟨trivial, hr⟩, h]

theorem boldPairSubF_comment_shape (m0 : Char) (mtl : Str) (hm0 : ¬ m0 = '*')
    (hds : findDoubleStar ((m0 :: mtl) ++ ['*', '/']) = none) :
    ∀ fuel, (m0 :: mtl).length + 6 ≤ fuel →
      boldPairSubF fuel ('/' :: '*' :: '*' :: ((m0 :: mtl) ++ ['*', '/'])) =
        '/' :: '*' :: '*' :: ((m0 :: mtl) ++ ['*', '/']) := by
  intro fuel hf
  obtain ⟨f1, rfl⟩ : ∃ f1, fuel = f1 + 1 := ⟨fuel - 1, by omega⟩
  rw [boldPairSubF_step_copy f1 '/' _ (by rintro ⟨h1, _⟩; exact absurd h1 (by decide))]
  obtain ⟨f2, rfl⟩ : ∃ f2, f1 = f2 + 1 := ⟨f1 - 1, by omega⟩
  rw [boldPairSubF_step_pair_none f2 ('*' :: ((m0 :: mtl) ++ ['*', '/'])) hds rfl]
  obtain ⟨f3, rfl⟩ : ∃ f3, f2 = f3 + 1 := ⟨f2 - 1, by omega⟩
  rw [boldPairSubF_step_copy f3 '*' _ (by
    rintro ⟨_, ht⟩
    rw [List.cons_append] at ht
    simp at ht
    exact hm0 ht)]
  rw [boldPairSubF_no_pair f3 ((m0 :: mtl) ++ ['*', '/'])
    (by simp only [List.length_append, List.length_cons, List.length_nil] at hf ⊢; omega) hds]

theorem findCommentClose_cons_none {c : Char} {rest : Str}
    (h : findCommentClose (c :: rest) = none) :
    ¬ (c = '*' ∧ rest.take 1 = ['/']) ∧ findCommentClose rest = none := by
  by_cases hc : c = '*' ∧ rest.take 1 = ['/']
  · rw [show findCommentClose (c :: rest) = some ([], rest.drop 1) from by
      simp only [findCommentClose]; rw [if_pos hc]] at h
    exact absurd h (by simp)
  · refine ⟨hc, ?_⟩
    simp only [findCommentClose] at h
    rw [if_neg hc] at h
    split at h
    next pr heq => exact absurd h (by simp)
    next heq => exact heq

theorem findCommentClose_append :
    ∀ (x tail : Str), findCommentClose x = none →
      findCommentClose (x ++ '*' :: '/' :: tail) = some (x, tail) := by
  intro x
  induction x with
  | nil =>
    intro tail _
    simp [findCommentClose]
  | cons c x' ih =>
    intro tail h
    obtain ⟨hc, hx'⟩ := findCommentClose_cons_none h
    simp only [List.cons_append, findCommentClose, List.append_eq]
    have hcond : ¬ (c = '*' ∧ (x' ++ '*' :: '/' :: tail).take 1 = ['/']) := by
      cases x' with
      | nil => rintro ⟨_, ht⟩; simp at ht
      | cons y ys =>
        rintro ⟨h1, ht⟩
        rw [List.cons_append] at ht
        simp at ht
        exact hc ⟨h1, by simp [ht]⟩
    rw [if_neg hcond, ih tail hx']

theorem commentMatchAt_block (r b rem : Str)
    (hfc : findCommentClose r = some (b, rem)) :
    commentMatchAt ('/' :: '*' :: r) = some (("/*").data ++ b ++ (("*/").data), rem) := by
  simp only [commentMatchAt]
  rw [hfc]

theorem protectCommentsF_whole (c : Char) (rest : Str)
    (h : commentMatchAt (c :: rest) = some (c :: rest, [])) :
    protectCommentsF ((c :: rest).length + 1) 0 (c :: rest) =
      (placeholderStr 0, [c :: rest]) := by
  simp only [protectCommentsF]
  rw [h]
  rfl

theorem restore_single (com : Str) :
    restoreCommentsGo 0 (placeholderStr 0) [com] = com := by
  simp only [restoreCommentsGo]
  exact listReplace_self (placeholderStr 0) com (by decide)

theorem pyStrip_slash_bounded (x : Str) :
    pyStrip ('/' :: (x ++ ['/'])) = '/' :: (x ++ ['/']) := by
  have h1 : pyRstrip ('/' :: (x ++ ['/'])) = '/' :: (x ++ ['/']) := by
    have e : '/' :: (x ++ ['/']) = ('/' :: x) ++ ['/'] := by simp
    rw [e, pyRstrip_append]
    rw [if_neg (by decide), show pyRstrip (['/'] : Str) = ['/'] from by decide]
  simp only [pyStrip, h1]
  exact pyLstrip_cons_nonws (by decide)

/-- C2, amended.  Comments are placeholder-protected during the italic
(single-asterisk) stripping of the cleaning callback and restored
verbatim, but the bold (double-asterisk) stripping of step 5 runs
before the placeholders are installed, so only comments whose interior
contains no second double-asterisk pair are safe.  Generally: for any
comment interior that contains no newline, no backslash, no early close
delimiter, no double-asterisk pair before the closing delimiter, and
does not begin with an asterisk, the whole-body block comment (written
with the doubled opening asterisk, so internal asterisks are present)
passes through the cleaning callback byte-for-byte in a
non-brace-family block; and an italic span outside a comment is
stripped while the comment next to it is kept. -/
theorem comment_protection_amended (mid : Str)
    (hn : ∀ c ∈ mid, ¬ c = '\n') (hb : ∀ c ∈ mid, ¬ c = '\\')
    (hcc : findCommentClose ('*' :: mid) = none)
    (hds : findDoubleStar (mid ++ ['*', '/']) = none)
    (hhd : ¬ mid.take 1 = ['*']) :
    clean_code_block_content [] ('/' :: '*' :: '*' :: (mid ++ ['*', '/'])) =
      mkFencedBlock [] ('/' :: '*' :: '*' :: (mid ++ ['*', '/'])) ∧
    clean_code_block_content [] (("/* a */ *b*").data) =
      ("```\n/* a */ b\n```").data := by
  refine ⟨?_, by decide⟩
  by_cases hm : mid = []
  · subst hm
    decide
  · obtain ⟨m0, mtl, rfl⟩ : ∃ m0 mtl, mid = m0 :: mtl := by
      cases mid with
      | nil => exact absurd rfl hm
      | cons a b => exact ⟨a, b, rfl⟩
    have hm0 : ¬ m0 = '*' := by
      intro h
      exact hhd (by simp [h])
    have hmemlift : ∀ (P : Char → Prop), P '/' → P '*' → (∀ c ∈ (m0 :: mtl), P c) →
        ∀ c ∈ ('/' :: '*' :: '*' :: ((m0 :: mtl) ++ ['*', '/'])), P c := by
      intro P hs hst hmid c hc
      rcases List.mem_cons.mp hc with rfl | hc
      · exact hs
      rcases List.mem_cons.mp hc with rfl | hc
      · exact hst
      rcases List.mem_cons.mp hc with rfl | hc
      · exact hst
      rcases List.mem_append.mp hc with h | h
      · exact hmid c h
      rcases List.mem_cons.mp h with rfl | h
      · exact hst
      rcases List.mem_cons.mp h with rfl | h
      · exact hs
      exact absurd h (List.not_mem_nil c)
    have hsb := hmemlift (fun c => ¬ c = '\\') (by decide) (by decide) hb
    have hsnl := hmemlift (fun c => ¬ c = '\n') (by decide) (by decide) hn
    have hfc : findCommentClose ('*' :: ((m0 :: mtl) ++ ['*', '/'])) =
        some ('*' :: (m0 :: mtl), []) := by
      have h2 := findCommentClose_append ('*' :: (m0 :: mtl)) [] hcc
      simpa using h2
    have hcm : commentMatchAt ('/' :: '*' :: '*' :: ((m0 :: mtl) ++ ['*', '/'])) =
        some ('/' :: '*' :: '*' :: ((m0 :: mtl) ++ ['*', '/']), []) :=
      commentMatchAt_block ('*' :: ((m0 :: mtl) ++ ['*', '/'])) ('*' :: (m0 :: mtl)) [] hfc
    have hnorm : normalize_code_body ('/' :: '*' :: '*' :: ((m0 :: mtl) ++ ['*', '/'])) =
        '/' :: '*' :: '*' :: ((m0 :: mtl) ++ ['*', '/']) := by
      simp only [normalize_code_body, subLineCont]
      rw [subLineContF_no_backslash _ _ (Nat.lt_succ_self _) hsb]
      rw [malformedCommentSubF_slash _ (fun c hc => hsnl c (List.mem_cons_of_mem '/' hc))]
      rw [singleLineCommentSubF_slash _ (fun c hc => hsnl c (List.mem_cons_of_mem '/' hc))]
      simp only [listReplace]
      rw [listReplace_head_notin _ '\\' _ _ _ (Nat.lt_succ_self _) hsb]
      rw [listReplace_head_notin _ '\\' _ _ _ (Nat.lt_succ_self _) hsb]
      rw [boldPairSubF_comment_shape m0 mtl hm0 hds _
        (by simp only [List.length_cons, List.length_append, List.length_nil]; omega)]
      rw [protectCommentsF_whole '/' _ hcm]
      show restoreCommentsGo 0
          (italicNoCJKSubF ((placeholderStr 0).length + 1) (placeholderStr 0))
          ['/' :: '*' :: '*' :: ((m0 :: mtl) ++ ['*', '/'])] =
        '/' :: '*' :: '*' :: ((m0 :: mtl) ++ ['*', '/'])
      rw [show italicNoCJKSubF ((placeholderStr 0).length + 1) (placeholderStr 0) =
          placeholderStr 0 from by decide]
      exact restore_single _
    simp only [clean_code_block_content]
    rw [if_neg (by decide)]
    rw [hnorm]
    rw [show ('/' :: '*' :: '*' :: ((m0 :: mtl) ++ ['*', '/'])) =
        '/' :: (('*' :: '*' :: ((m0 :: mtl) ++ ['*'])) ++ ['/']) from by simp]
    rw [pyStrip_slash_bounded]
    rfl

/-- Witness for C2: the general protection statement applied at the
canonical interior, giving the preserved comment slash-star-star,
space, note, space, asterisk, space, more, space, star-slash. -/
theorem comment_protection_amended_witness :
    ((∀ c ∈ ((" note * more ").data), ¬ c = '\n') ∧
      (∀ c ∈ ((" note * more ").data), ¬ c = '\\') ∧
      findCommentClose ('*' :: ((" note * more ").data)) = none ∧
      findDoubleStar (((" note * more ").data) ++ ['*', '/']) = none ∧
      ¬ ((" note * more ").data).take 1 = ['*']) ∧
    (clean_code_block_content []
        ('/' :: '*' :: '*' :: (((" note * more ").data) ++ ['*', '/'])) =
      mkFencedBlock [] ('/' :: '*' :: '*' :: (((" note * more ").data) ++ ['*', '/'])) ∧
    clean_code_block_content [] (("/* a */ *b*").data) =
      ("```\n/* a */ b\n```").data) :=
  ⟨⟨by decide, by decide, by decide, by decide, by decide⟩,
    comment_protection_amended ((" note * more ").data) (by decide) (by decide)
      (by decide) (by decide) (by decide)⟩
